import Mathlib

/-!
# Verification of the `cpus` CPU-set/range-list library

A shallow embedding of the Go package `cpus`:

* `CpuSet` embeds the Go type `Set []uint64` — a CPU bitmask; word `i` holds
  CPU numbers `64*i … 64*i+63`, bit `cpu % 64` of word `cpu / 64`.
  Words are modelled as `Nat`; a well-formed word is `< 2^64` (`WFSet`).
* `RangeList` embeds the Go type `List [][2]uint` — a list of inclusive
  CPU ranges.
* Go functions are embedded one-to-one; a Go `panic` becomes `Option.none`.
-/

set_option maxHeartbeats 1000000

namespace Cpus

/-- Embeds Go `type Set []uint64` (the Go name `Set` clashes with Lean's
`Set`, hence `CpuSet`). Each element is one 64-bit mask word. -/
abbrev CpuSet := List Nat

/-- Embeds Go `type List [][2]uint` (the Go name `List` clashes with Lean's
`List`, hence `RangeList`): inclusive `(from, to)` CPU ranges. -/
abbrev RangeList := List (Nat × Nat)

/-- Go `bitsperword`: bits per mask word (`uint64` has 64 bits). -/
def bitsperword : Nat := 64

/-- A well-formed `CpuSet`: every word fits in a `uint64`. -/
def WFSet (s : CpuSet) : Prop := ∀ w ∈ s, w < 2 ^ 64

instance : DecidablePred WFSet := fun s =>
  inferInstanceAs (Decidable (∀ w ∈ s, w < 2 ^ 64))

/-- Go `setBitIndex(cpu)`: the word index `cpu / bitsperword`. -/
def setBitIndex (cpu : Nat) : Nat := cpu / bitsperword

/-- Go `setBitMask(cpu)`: `uint64(1) << (cpu % bitsperword)`; the shift
amount is `< 64`, so no 64-bit truncation occurs. -/
def setBitMask (cpu : Nat) : Nat := 2 ^ (cpu % bitsperword)

/-- Go `Set.IsSet(cpu)`: `false` beyond the backing storage, otherwise a
bit test `s[setBitIndex(cpu)] & setBitMask(cpu) != 0`. -/
def IsSet (s : CpuSet) (cpu : Nat) : Bool :=
  if s.length * bitsperword ≤ cpu then false
  else (s.getD (setBitIndex cpu) 0) &&& setBitMask cpu != 0

/-- One iteration of the Go loop body in `Set.AddRange`:
`set[setBitIndex(cpu)] |= setBitMask(cpu)`. -/
def setCpu (set : CpuSet) (cpu : Nat) : CpuSet :=
  set.set (setBitIndex cpu) ((set.getD (setBitIndex cpu) 0) ||| setBitMask cpu)

/-- Go `Set.AddRange(from, to)` (file `part_000`): panics (`none`) when
`from > to`; otherwise allocates
`setLen = max(to/bitsperword+1, uint(len(s))*bitsperword)` zeroed words
(note: the Go source multiplies the word count `len(s)` by `bitsperword`),
copies `s` into the prefix, and sets every bit in `[from, to]`. -/
def AddRange (s : CpuSet) (lo hi : Nat) : Option CpuSet :=
  if lo > hi then none
  else
    let setLen := max (hi / bitsperword + 1) (s.length * bitsperword)
    let set0 := s ++ List.replicate (setLen - s.length) 0
    some ((List.range' lo (hi + 1 - lo)).foldl setCpu set0)

/-- Effect model of Go `Set.AddRange` for the frame property: the memory of
the receiver `s` and the memory of the freshly `make`-allocated `set` are
kept apart; `copy(set[0:len(s)], s)` and the bit-setting loop write only to
`set`. Returns (receiver memory after the call, returned set). -/
def AddRangeEff (s : CpuSet) (lo hi : Nat) : Option (CpuSet × CpuSet) :=
  if lo > hi then none
  else
    let sMem := s
    let setLen := max (hi / bitsperword + 1) (sMem.length * bitsperword)
    -- set := make(Set, setLen)
    let setMem : CpuSet := List.replicate setLen 0
    -- copy(set[0:len(s)], s): word-by-word writes into setMem only
    let setMem := (List.range sMem.length).foldl
      (fun m i => m.set i (sMem.getD i 0)) setMem
    -- the bit-setting loop writes into setMem only
    let setMem := (List.range' lo (hi + 1 - lo)).foldl setCpu setMem
    some (sMem, setMem)

/-! ## Bit-level helper lemmas -/

theorem land_two_pow_bne_zero (x k : Nat) : (x &&& 2 ^ k != 0) = x.testBit k := by
  rw [Nat.and_two_pow]
  cases hb : x.testBit k <;> simp [hb]

theorem isSet_eq_testBit (s : CpuSet) (cpu : Nat) :
    IsSet s cpu = (decide (cpu < s.length * 64) &&
      (s.getD (cpu / 64) 0).testBit (cpu % 64)) := by
  by_cases h : s.length * 64 ≤ cpu
  · simp [IsSet, bitsperword, h, Nat.not_lt.2 h]
  · have h2 : cpu < s.length * 64 := Nat.lt_of_not_le h
    simp only [IsSet, bitsperword, setBitIndex, setBitMask, if_neg h, h2,
      decide_True, Bool.true_and]
    exact land_two_pow_bne_zero _ _

theorem isSet_out_of_range (s : CpuSet) (cpu : Nat) (h : s.length * 64 ≤ cpu) :
    IsSet s cpu = false := by
  simp [isSet_eq_testBit, Nat.not_lt.2 h]

/-- `setCpu` does not change the length of the backing storage. -/
theorem length_setCpu (w : CpuSet) (c : Nat) : (setCpu w c).length = w.length := by
  simp [setCpu]

theorem length_foldl_setCpu (cpus : List Nat) (w : CpuSet) :
    (cpus.foldl setCpu w).length = w.length := by
  induction cpus generalizing w with
  | nil => rfl
  | cons c cs ih => simpa [length_setCpu] using ih (setCpu w c)

/-- `getD` after `List.set`. -/
theorem getD_set (l : List Nat) (i j a : Nat) :
    (l.set i a).getD j 0 = if i = j ∧ i < l.length then a else l.getD j 0 := by
  by_cases hij : i = j
  · subst hij
    by_cases hi : i < l.length
    · simp [List.getD, List.getElem?_set_self hi, hi]
    · simp [List.getD, List.set_eq_of_length_le (Nat.le_of_not_lt hi), hi]
  · simp [List.getD, List.getElem?_set_ne hij, hij]

/-- Membership after a single bit-setting write: CPU `n` is set afterwards
iff it was set before or `n = c`, provided `c`'s word lies inside `w`. -/
theorem isSet_setCpu (w : CpuSet) (c n : Nat) (hc : c / 64 < w.length) :
    IsSet (setCpu w c) n = (IsSet w n || n == c) := by
  have hlen : (setCpu w c).length = w.length := length_setCpu w c
  have hcne : c < w.length * 64 := by omega
  rcases Nat.lt_or_ge n (w.length * 64) with h | h
  · -- in range
    rw [isSet_eq_testBit, isSet_eq_testBit, hlen]
    simp only [h, decide_True, Bool.true_and]
    by_cases hq : n / 64 = c / 64
    · -- same word
      have hset : (setCpu w c).getD (n / 64) 0 =
          (w.getD (n / 64) 0) ||| 2 ^ (c % 64) := by
        simp only [setCpu, setBitIndex, setBitMask, bitsperword, getD_set]
        rw [if_pos ⟨hq.symm, hc⟩, hq]
      rw [hset, Nat.testBit_or]
      have htp : (2 ^ (c % 64)).testBit (n % 64) = (n % 64 == c % 64) := by
        by_cases hm : n % 64 = c % 64
        · simp [hm, Nat.testBit_two_pow_self]
        · simp [Nat.testBit_two_pow_of_ne (Ne.symm hm), hm]
      rw [htp]
      have hmc : (n % 64 == c % 64) = (n == c) := by
        by_cases hnc : n = c
        · simp [hnc]
        · have : ¬ n % 64 = c % 64 := by
            intro hmod
            exact hnc (by omega)
          simp [this, hnc]
      rw [hmc]
    · -- different word untouched
      have huntouched : (setCpu w c).getD (n / 64) 0 = w.getD (n / 64) 0 := by
        simp only [setCpu, setBitIndex, bitsperword, getD_set]
        rw [if_neg (by intro hand; exact hq hand.1.symm)]
      rw [huntouched]
      have : (n == c) = false := by
        simp only [beq_eq_false_iff_ne, ne_eq]
        intro hnc; exact hq (by rw [hnc])
      simp [this]
  · -- out of range: n ≠ c and both sides false
    have : (n == c) = false := by
      simp only [beq_eq_false_iff_ne, ne_eq]
      omega
    rw [isSet_out_of_range _ _ (hlen ▸ h), isSet_out_of_range _ _ h, this]
    simp

theorem isSet_foldl_setCpu (cpus : List Nat) (w : CpuSet)
    (h : ∀ c ∈ cpus, c / 64 < w.length) (n : Nat) :
    IsSet (cpus.foldl setCpu w) n = (IsSet w n || cpus.contains n) := by
  induction cpus generalizing w with
  | nil => simp
  | cons c cs ih =>
    have hc : c / 64 < w.length := h c (by simp)
    have hcs : ∀ x ∈ cs, x / 64 < (setCpu w c).length := by
      intro x hx; rw [length_setCpu]; exact h x (by simp [hx])
    simp only [List.foldl_cons, ih (setCpu w c) hcs, isSet_setCpu w c n hc,
      List.contains_cons]
    by_cases hnc : n = c <;>
      cases hw : IsSet w n <;> simp [hnc, hw]

/-! ## `AddRange`: growing and membership -/

theorem getD_append_left {s t : List Nat} {i : Nat} (h : i < s.length) :
    (s ++ t).getD i 0 = s.getD i 0 := by
  simp [List.getD, List.getElem?_append_left h]

theorem getD_append_right {s t : List Nat} {i : Nat} (h : s.length ≤ i) :
    (s ++ t).getD i 0 = t.getD (i - s.length) 0 := by
  simp [List.getD, List.getElem?_append_right h]

theorem getD_replicate_zero (k i : Nat) : (List.replicate k 0).getD i 0 = 0 := by
  simp only [List.getD, List.getElem?_replicate]
  by_cases h : i < k <;> simp [h]

/-- Padding a `CpuSet` with zero words does not change membership. -/
theorem isSet_append_replicate (s : CpuSet) (k c : Nat) :
    IsSet (s ++ List.replicate k 0) c = IsSet s c := by
  rw [isSet_eq_testBit, isSet_eq_testBit]
  rcases Nat.lt_or_ge c (s.length * 64) with h | h
  · have hdiv : c / 64 < s.length := by omega
    have hlen : c < (s.length + k) * 64 := by omega
    rw [getD_append_left hdiv]
    simp [h, hlen]
  · have hdiv : s.length ≤ c / 64 := by omega
    rw [getD_append_right hdiv, getD_replicate_zero]
    simp [Nat.not_lt.2 h]

theorem length_addRange_buffer (s : CpuSet) (hi : Nat) :
    (s ++ List.replicate (max (hi / bitsperword + 1) (s.length * bitsperword)
      - s.length) 0).length = max (hi / 64 + 1) (s.length * 64) := by
  simp only [List.length_append, List.length_replicate, bitsperword]
  omega

/-- For `from ≤ to`, `AddRange` succeeds and the returned set is a
member exactly of the old members plus the CPUs in `[from, to]`. -/
theorem addRange_isSet (s : CpuSet) (lo hi : Nat) (h : lo ≤ hi) :
    ∃ t, AddRange s lo hi = some t ∧
      ∀ c, IsSet t c = (IsSet s c || (decide (lo ≤ c) && decide (c ≤ hi))) := by
  rw [AddRange, if_neg (Nat.not_lt.2 h)]
  refine ⟨_, rfl, fun c => ?_⟩
  have hbuf := length_addRange_buffer s hi
  have hin : ∀ x ∈ List.range' lo (hi + 1 - lo), x / 64 <
      (s ++ List.replicate (max (hi / bitsperword + 1) (s.length * bitsperword)
        - s.length) 0).length := by
    intro x hx
    rw [hbuf]
    rcases List.mem_range'.1 hx with ⟨i, hi', hxeq⟩
    have hxle : x ≤ hi := by omega
    have : x / 64 ≤ hi / 64 := Nat.div_le_div_right hxle
    omega
  rw [isSet_foldl_setCpu _ _ hin c, isSet_append_replicate]
  have hcontains : (List.range' lo (hi + 1 - lo)).contains c =
      (decide (lo ≤ c) && decide (c ≤ hi)) := by
    by_cases hcc : lo ≤ c ∧ c ≤ hi
    · have : c ∈ List.range' lo (hi + 1 - lo) :=
        List.mem_range'.2 ⟨c - lo, by omega, by omega⟩
      simp [List.contains, List.elem_eq_mem, this, hcc.1, hcc.2]
    · have : c ∉ List.range' lo (hi + 1 - lo) := by
        intro hmem
        rcases List.mem_range'.1 hmem with ⟨i, hi', hxeq⟩
        exact hcc ⟨by omega, by omega⟩
      rcases Decidable.not_and_iff_or_not.1 hcc with hlo | hhi
      · simp [List.contains, List.elem_eq_mem, this, hlo]
      · simp [List.contains, List.elem_eq_mem, this, hhi]
  rw [hcontains]

/-- **C2.** For `from ≤ to`, `AddRange` succeeds and the returned set is a
member exactly of the old members plus the CPUs in `[from, to]`. -/
theorem addRange_membership (s : CpuSet) (lo hi : Nat) (h : lo ≤ hi) :
    ∃ t, AddRange s lo hi = some t ∧
      ∀ c, IsSet t c = (IsSet s c || (decide (lo ≤ c) && decide (c ≤ hi))) :=
  addRange_isSet s lo hi h

/-- **C2 witness**: `Set{}.AddRange(3, 5)` membership at a concrete input. -/
theorem addRange_membership_witness :
    ∃ t, AddRange [] 3 5 = some t ∧
      ∀ c, IsSet t c = (IsSet [] c || (decide (3 ≤ c) && decide (c ≤ 5))) :=
  addRange_membership [] 3 5 (by decide)

/-- **C3 (code bug).** On the one-word set `{0}` with range `0–0`, the Go
source allocates `max(to/bitsperword+1, len(s)*bitsperword) = 64` words —
the word count is multiplied by the bit width — whereas the claimed minimal
growth is `max(to/64+1, len(s)) = 1` word. -/
theorem addRange_length_at_failing_input :
    ((AddRange [0] 0 0).map List.length = some 64) ∧
      max (0 / 64 + 1) ([(0 : Nat)].length) = 1 := by
  constructor
  · decide
  · decide

/-- The word count the Go `AddRange` actually allocates:
`max(to/bitsperword+1, len(s)*bitsperword)` — for every `from ≤ to`. -/
theorem addRange_length (s : CpuSet) (lo hi : Nat) (h : lo ≤ hi) :
    (AddRange s lo hi).map List.length =
      some (max (hi / 64 + 1) (s.length * 64)) := by
  rw [AddRange, if_neg (Nat.not_lt.2 h)]
  simp only [Option.map_some']
  rw [length_foldl_setCpu, length_addRange_buffer]

theorem addRange_length_witness :
    (AddRange [0] 0 0).map List.length = some (max (0 / 64 + 1) (64 * 1)) :=
  addRange_length [0] 0 0 (by decide)

/-! ## `AddRangeEff`: the receiver is never written (frame property) -/

/-- The word-by-word embedding of `copy(set[0:len(s)], s)` into a zeroed
buffer of length `L ≥ len(s)` produces `s` followed by zero words. -/
theorem copy_fold (s : CpuSet) (L : Nat) (hL : s.length ≤ L) :
    (List.range s.length).foldl (fun m i => m.set i (s.getD i 0))
      (List.replicate L 0) = s ++ List.replicate (L - s.length) 0 := by
  suffices hsuff : ∀ n, n ≤ s.length →
      (List.range n).foldl (fun m i => m.set i (s.getD i 0))
        (List.replicate L 0) = s.take n ++ List.replicate (L - n) 0 by
    simpa [List.take_length] using hsuff s.length (Nat.le_refl _)
  intro n hn
  induction n with
  | zero => simp
  | succ m ih =>
    have hm : m ≤ s.length := Nat.le_of_succ_le hn
    have hmlt : m < s.length := hn
    rw [List.range_succ, List.foldl_append, ih hm]
    have htake : (s.take m).length = m := by
      rw [List.length_take]; omega
    have hrep : L - m = (L - (m + 1)) + 1 := by omega
    simp only [List.foldl_cons, List.foldl_nil]
    rw [List.set_append_right m (s.getD m 0) (Nat.le_of_eq htake), htake]
    have : (List.replicate (L - m) 0).set (m - m) (s.getD m 0) =
        s.getD m 0 :: List.replicate (L - (m + 1)) 0 := by
      rw [Nat.sub_self, hrep, List.replicate_succ, List.set_cons_zero]
    rw [this]
    have : s.take (m + 1) = s.take m ++ [s.getD m 0] := by
      rw [List.take_succ]
      congr 1
      rw [List.getElem?_eq_getElem hmlt]
      simp [List.getD, List.getElem?_eq_getElem hmlt]
    rw [this, List.append_assoc]
    rfl

/-- **C10.** `AddRange` never mutates its receiver: in the effect model all
writes land in the freshly allocated buffer; afterwards the receiver memory
is word-for-word unchanged and the returned set is exactly `AddRange`'s
result. -/
theorem addRange_frame (s : CpuSet) (lo hi : Nat) (h : lo ≤ hi) :
    ∃ rec ret, AddRangeEff s lo hi = some (rec, ret) ∧
      rec = s ∧ AddRange s lo hi = some ret := by
  rw [AddRangeEff, if_neg (Nat.not_lt.2 h), AddRange, if_neg (Nat.not_lt.2 h)]
  refine ⟨s, _, rfl, rfl, ?_⟩
  rw [copy_fold s _ (by simp only [bitsperword]; omega)]

/-- **C10 witness** at a concrete input. -/
theorem addRange_frame_witness :
    ∃ rec ret, AddRangeEff [5] 2 66 = some (rec, ret) ∧
      rec = [5] ∧ AddRange [5] 2 66 = some ret :=
  addRange_frame [5] 2 66 (by decide)

/-! ## `Single` -/

/-- Go `bits.Len64(x)`: the minimum number of bits to represent `x`
(`0` for `x = 0`). -/
def len64 (x : Nat) : Nat := if x = 0 then 0 else Nat.log2 x + 1

/-- The inner Go loop of `Set.Single` that ensures no further non-zero word
follows the word holding the single CPU. -/
def anyFurtherNonzero : CpuSet → Bool
  | [] => false
  | w :: rest => if w ≠ 0 then true else anyFurtherNonzero rest

/-- The outer Go loop of `Set.Single`, scanning word `idx` onwards. -/
def singleGo : CpuSet → Nat → Option Nat
  | [], _ => none
  | w :: rest, idx =>
    if w ≠ 0 then
      -- everyone only one CPU please...
      if w = 0 ∨ w &&& (w - 1) ≠ 0 then none
      else if anyFurtherNonzero rest then none
      else some (len64 w - 1 + idx * 64)
    else singleGo rest (idx + 1)

/-- Go `Set.Single()`: the sole member CPU (`some cpu` for `(cpu, true)`,
`none` for `(0, false)`). -/
def Single (s : CpuSet) : Option Nat :=
  if s.length = 0 then none else singleGo s 0

/-- `Nat.bit` on a concrete flag. -/
theorem bit_false_eq (m : Nat) : Nat.bit false m = 2 * m := rfl

theorem bit_true_eq (m : Nat) : Nat.bit true m = 2 * m + 1 := rfl

/-- `x & (x-1) == 0` is the power-of-two test used by `Single`. -/
theorem land_pred_eq_zero_iff :
    ∀ w : Nat, w ≠ 0 → (w &&& (w - 1) = 0 ↔ ∃ k, w = 2 ^ k) := by
  intro w
  induction w using Nat.strong_induction_on with
  | _ w ih =>
    intro hw
    rcases Nat.even_or_odd w with he | ho
    · -- even w = 2*m with m ≥ 1
      obtain ⟨m, hm⟩ := he
      have hm0 : m ≠ 0 := by omega
      have hb1 : w = Nat.bit false m := by rw [bit_false_eq]; omega
      have hb2 : w - 1 = Nat.bit true (m - 1) := by rw [bit_true_eq]; omega
      rw [hb2, hb1, Nat.land_bit]
      have hrec := ih m (by omega) hm0
      rw [show (false && true) = false from rfl, bit_false_eq, bit_false_eq]
      constructor
      · intro h0
        rcases hrec.1 (by omega) with ⟨k, hk⟩
        refine ⟨k + 1, ?_⟩
        rw [hk, Nat.pow_succ]
        ring
      · rintro ⟨k, hk⟩
        rcases k with _ | k'
        · exfalso
          simp only [Nat.pow_zero] at hk
          omega
        · have hm' : m = 2 ^ k' := by
            rw [Nat.pow_succ] at hk
            omega
          have := hrec.2 ⟨k', hm'⟩
          omega
    · -- odd w = 2*m + 1
      obtain ⟨m, hm⟩ := ho
      by_cases hm0 : m = 0
      · subst hm0
        simp only [hm]
        constructor
        · intro
          exact ⟨0, by norm_num⟩
        · intro
          decide
      · have hb1 : w = Nat.bit true m := by rw [bit_true_eq]; omega
        have hb2 : w - 1 = Nat.bit false m := by rw [bit_false_eq]; omega
        rw [hb2, hb1, Nat.land_bit]
        have hself : m &&& m = m :=
          Nat.eq_of_testBit_eq fun i => by simp [Nat.testBit_and]
        rw [show (true && false) = false from rfl, bit_false_eq, bit_true_eq, hself]
        constructor
        · intro h0
          exact absurd h0 (by omega)
        · rintro ⟨k, hk⟩
          exfalso
          rcases k with _ | k'
          · simp only [Nat.pow_zero] at hk
            omega
          · rw [Nat.pow_succ] at hk
            omega

/-- Membership in a cons decomposes into the head word's bits and the tail. -/
theorem isSet_cons (w : Nat) (rest : CpuSet) (d : Nat) :
    IsSet (w :: rest) d = if d < 64 then w.testBit d else IsSet rest (d - 64) := by
  rw [isSet_eq_testBit, isSet_eq_testBit]
  by_cases hd : d < 64
  · have h0 : d / 64 = 0 := Nat.div_eq_of_lt hd
    have h1 : d % 64 = d := Nat.mod_eq_of_lt hd
    have h3 : decide (d < (w :: rest).length * 64) = true := by
      simp only [List.length_cons, decide_eq_true_eq]; omega
    rw [if_pos hd, h0, h1, List.getD_cons_zero, h3, Bool.true_and]
  · have h0 : d / 64 = (d - 64) / 64 + 1 := by omega
    have h1 : d % 64 = (d - 64) % 64 := by omega
    have h3 : decide (d < (w :: rest).length * 64) =
        decide ((d - 64) < rest.length * 64) := by
      simp only [List.length_cons, decide_eq_decide]; omega
    rw [if_neg hd, h0, h1, List.getD_cons_succ, h3]

/-- A non-zero well-formed word has a set bit below 64. -/
theorem exists_testBit_lt_64 (w : Nat) (hw : w ≠ 0) (hWF : w < 2 ^ 64) :
    ∃ i, i < 64 ∧ w.testBit i := by
  rcases Nat.ne_zero_implies_bit_true hw with ⟨i, hi⟩
  refine ⟨i, ?_, hi⟩
  by_contra hge
  have : w < 2 ^ i := lt_of_lt_of_le hWF (Nat.pow_le_pow_right (by omega) (by omega))
  rw [Nat.testBit_lt_two_pow this] at hi
  exact Bool.false_ne_true hi

/-- `anyFurtherNonzero` detects exactly a non-zero word. -/
theorem anyFurtherNonzero_spec (rest : CpuSet) :
    anyFurtherNonzero rest = true ↔ ∃ w ∈ rest, w ≠ 0 := by
  induction rest with
  | nil => simp [anyFurtherNonzero]
  | cons w r ih =>
    by_cases hw : w = 0
    · simp [anyFurtherNonzero, hw, ih]
    · simp [anyFurtherNonzero, hw]

/-- A well-formed suffix has a member iff it has a non-zero word. -/
theorem exists_isSet_iff (rest : CpuSet) (hWF : WFSet rest) :
    (∃ w ∈ rest, w ≠ 0) ↔ (∃ d, IsSet rest d = true) := by
  induction rest with
  | nil =>
    constructor
    · rintro ⟨w, hmem, _⟩; cases hmem
    · rintro ⟨d, hd⟩
      rw [isSet_out_of_range _ _ (by simp)] at hd
      cases hd
  | cons w r ih =>
    have hWFw : w < 2 ^ 64 := hWF w (by simp)
    have hWFr : WFSet r := fun x hx => hWF x (by simp [hx])
    constructor
    · rintro ⟨w', hmem, hne⟩
      rcases List.mem_cons.1 hmem with rfl | hmem'
      · rcases exists_testBit_lt_64 w' hne hWFw with ⟨i, hilt, hib⟩
        exact ⟨i, by rw [isSet_cons]; simp [hilt, hib]⟩
      · rcases (ih hWFr).1 ⟨w', hmem', hne⟩ with ⟨d, hd⟩
        refine ⟨d + 64, ?_⟩
        rw [isSet_cons, if_neg (by omega)]
        simpa using hd
    · rintro ⟨d, hd⟩
      rw [isSet_cons] at hd
      by_cases hdlt : d < 64
      · rw [if_pos hdlt] at hd
        refine ⟨w, by simp, ?_⟩
        intro h0
        rw [h0, Nat.zero_testBit] at hd
        cases hd
      · rw [if_neg hdlt] at hd
        rcases (ih hWFr).2 ⟨d - 64, hd⟩ with ⟨w', hmem', hne⟩
        exact ⟨w', by simp [hmem'], hne⟩

/-- The word-scanning loop of `Single`, characterized: it reports `c` iff
`c` is `idx * 64` plus the sole member of the scanned suffix. -/
theorem singleGo_spec (s : CpuSet) (hWF : WFSet s) :
    ∀ idx c, singleGo s idx = some c ↔
      ∃ j, c = j + idx * 64 ∧ ∀ d, IsSet s d = (d == j) := by
  induction s with
  | nil =>
    intro idx c
    constructor
    · intro h
      exact absurd h (by simp [singleGo])
    · rintro ⟨j, -, hall⟩
      have h := hall j
      rw [isSet_out_of_range _ _ (by simp)] at h
      simp at h
  | cons w rest ih =>
    intro idx c
    have hWFw : w < 2 ^ 64 := hWF w (by simp)
    have hWFr : WFSet rest := fun x hx => hWF x (by simp [hx])
    by_cases hw : w = 0
    · -- skip the zero word
      subst hw
      rw [show singleGo (0 :: rest) idx = singleGo rest (idx + 1) by
        simp [singleGo]]
      rw [ih hWFr (idx + 1) c]
      constructor
      · rintro ⟨j', hc, hall⟩
        refine ⟨j' + 64, by omega, fun d => ?_⟩
        rw [isSet_cons]
        by_cases hd : d < 64
        · rw [if_pos hd, Nat.zero_testBit]
          have : (d == j' + 64) = false := by
            simp only [beq_eq_false_iff_ne, ne_eq]; omega
          rw [this]
        · rw [if_neg hd, hall (d - 64)]
          by_cases he : d - 64 = j'
          · have h1 : (d - 64 == j') = true := by simp [he]
            have h2 : (d == j' + 64) = true := by
              simp only [beq_iff_eq]; omega
            rw [h1, h2]
          · have h1 : (d - 64 == j') = false := by
              simp only [beq_eq_false_iff_ne, ne_eq]; exact he
            have h2 : (d == j' + 64) = false := by
              simp only [beq_eq_false_iff_ne, ne_eq]; omega
            rw [h1, h2]
      · rintro ⟨j, hc, hall⟩
        have hj : 64 ≤ j := by
          by_contra hjlt
          have := hall j
          rw [isSet_cons, if_pos (by omega), Nat.zero_testBit] at this
          simp at this
        refine ⟨j - 64, by omega, fun d => ?_⟩
        have := hall (d + 64)
        rw [isSet_cons, if_neg (by omega)] at this
        simp only [Nat.add_sub_cancel] at this
        rw [this]
        by_cases he : d + 64 = j
        · have h1 : (d + 64 == j) = true := by simp [he]
          have h2 : (d == j - 64) = true := by
            simp only [beq_iff_eq]; omega
          rw [h1, h2]
        · have h1 : (d + 64 == j) = false := by
            simp only [beq_eq_false_iff_ne, ne_eq]; exact he
          have h2 : (d == j - 64) = false := by
            simp only [beq_eq_false_iff_ne, ne_eq]; omega
          rw [h1, h2]
    · -- non-zero word
      rw [show singleGo (w :: rest) idx =
          (if w = 0 ∨ w &&& (w - 1) ≠ 0 then none
           else if anyFurtherNonzero rest then none
           else some (len64 w - 1 + idx * 64)) by simp [singleGo, hw]]
      by_cases hpow : w &&& (w - 1) = 0
      · -- single bit in this word
        rcases (land_pred_eq_zero_iff w hw).1 hpow with ⟨k, hk⟩
        have hk64 : k < 64 := by
          subst hk
          by_contra hge
          exact absurd hWFw (Nat.not_lt.2 (Nat.pow_le_pow_right (by omega) (by omega)))
        rw [if_neg (by simp [hw, hpow])]
        by_cases hany : anyFurtherNonzero rest = true
        · -- a later word is non-zero: never a single CPU
          rw [if_pos hany]
          constructor
          · intro hnone
            exact absurd hnone (by simp)
          · rintro ⟨j, -, hall⟩
            exfalso
            rcases (exists_isSet_iff rest hWFr).1
              ((anyFurtherNonzero_spec rest).1 hany) with ⟨d, hd⟩
            have h1 := hall (d + 64)
            rw [isSet_cons, if_neg (by omega)] at h1
            simp only [Nat.add_sub_cancel] at h1
            rw [hd] at h1
            have h2 := hall k
            rw [isSet_cons, if_pos hk64, hk, Nat.testBit_two_pow_self] at h2
            have hj1 : d + 64 = j := by simpa using h1.symm
            have hj2 : k = j := by simpa using h2.symm
            omega
        · -- exactly one bit: CPU k + idx*64
          rw [if_neg hany]
          have hlen : len64 w - 1 = k := by
            simp [len64, hw, hk, Nat.log2_two_pow]
          rw [hlen]
          constructor
          · intro hsome
            have hc : c = k + idx * 64 := by
              injection hsome with h; omega
            refine ⟨k, hc, fun d => ?_⟩
            rw [isSet_cons]
            by_cases hd : d < 64
            · rw [if_pos hd, hk]
              by_cases he : d = k
              · simp [he, Nat.testBit_two_pow_self]
              · simp [Nat.testBit_two_pow_of_ne (Ne.symm he), he]
            · rw [if_neg hd]
              have hrest0 : ∀ d', IsSet rest d' = false := by
                intro d'
                by_contra hne
                have : ∃ dd, IsSet rest dd = true :=
                  ⟨d', by revert hne; cases IsSet rest d' <;> simp⟩
                exact hany ((anyFurtherNonzero_spec rest).2
                  ((exists_isSet_iff rest hWFr).2 this))
              rw [hrest0 (d - 64)]
              have : (d == k) = false := by
                simp only [beq_eq_false_iff_ne, ne_eq]; omega
              rw [this]
          · rintro ⟨j, hc, hall⟩
            have hjk : j = k := by
              have h2 := hall k
              rw [isSet_cons, if_pos hk64, hk, Nat.testBit_two_pow_self] at h2
              have h3 : (k == j) = true := h2.symm
              simp only [beq_iff_eq] at h3
              omega
            subst hjk
            rw [hc]
      · -- more than one bit in this word: never a single CPU
        rw [if_pos (by simp [hpow])]
        constructor
        · intro hnone
          exact absurd hnone (by simp)
        · rintro ⟨j, -, hall⟩
          exfalso
          -- from a sole member j, the head word must be a power of two
          rcases exists_testBit_lt_64 w hw hWFw with ⟨i, hilt, hib⟩
          have hij : i = j := by
            have := hall i
            rw [isSet_cons, if_pos hilt, hib] at this
            simpa using this.symm
          have hw2 : w = 2 ^ j := by
            apply Nat.eq_of_testBit_eq
            intro b
            by_cases hb : b = j
            · subst hb
              rw [Nat.testBit_two_pow_self, ← hij, hib]
            · rw [Nat.testBit_two_pow_of_ne (Ne.symm hb)]
              by_cases hblt : b < 64
              · have := hall b
                rw [isSet_cons, if_pos hblt] at this
                rw [this]
                simp [hb]
              · exact Nat.testBit_lt_two_pow
                  (lt_of_lt_of_le hWFw (Nat.pow_le_pow_right (by omega) (by omega)))
          exact hpow ((land_pred_eq_zero_iff w hw).2 ⟨j, hw2⟩)

/-- **C6.** `Single` returns `some c` exactly when `c` is the sole member
of the (well-formed) set — trailing zero words do not matter — and `none`
for an empty or multi-member set. -/
theorem single_spec (s : CpuSet) (hWF : WFSet s) (c : Nat) :
    Single s = some c ↔ ∀ d, IsSet s d = (d == c) := by
  rw [Single]
  by_cases hlen : s.length = 0
  · rw [if_pos hlen]
    rcases List.length_eq_zero.1 hlen with rfl
    constructor
    · intro h
      exact absurd h (by simp)
    · intro hall
      exfalso
      have h := hall c
      rw [isSet_out_of_range _ _ (by simp)] at h
      simp at h
  · rw [if_neg hlen, singleGo_spec s hWF 0 c]
    constructor
    · rintro ⟨j, hc, hall⟩
      have : j = c := by omega
      subst this
      exact hall
    · intro hall
      exact ⟨c, by omega, hall⟩

/-- **C6 witness**: the two-word set `{1 << 63, 0}` (CPU 63 only, with a
trailing zero word) has the single CPU 63. -/
theorem single_spec_witness :
    Single [2 ^ 63, 0] = some 63 ↔ ∀ d, IsSet [2 ^ 63, 0] d = (d == 63) :=
  single_spec [2 ^ 63, 0] (by decide) 63

/-! ## Range lists: canonical form, `Remove` -/

/-- Strictly-increasing range-list check with a minimum gap `gap` between
the end of one range and the start of the next (`gap = 0`: canonical form,
`gap = 1`: canonical minimal form). Executable by structural recursion. -/
def chainOkB (gap : Nat) : RangeList → Bool
  | [] => true
  | [r] => decide (r.1 ≤ r.2)
  | r :: s :: rest =>
    decide (r.1 ≤ r.2) && decide (r.2 + gap < s.1) && chainOkB gap (s :: rest)

/-- Canonical form of a `RangeList` (precondition of the Go overlap
operations): valid inclusive ranges (`from ≤ to`), strictly increasing and
pairwise non-overlapping. -/
def Canonical (l : RangeList) : Prop := chainOkB 0 l = true

/-- Canonical *minimal* form, as produced by `Set.List`: additionally
consecutive ranges are separated by at least one absent CPU. -/
def CanonicalMin (l : RangeList) : Prop := chainOkB 1 l = true

instance : DecidablePred Canonical := fun _ =>
  inferInstanceAs (Decidable (_ = _))

instance : DecidablePred CanonicalMin := fun _ =>
  inferInstanceAs (Decidable (_ = _))

/-- CPU `n` lies in one of the ranges of `l`. -/
def covered (l : RangeList) (n : Nat) : Prop := ∃ r ∈ l, r.1 ≤ n ∧ n ≤ r.2

instance (l : RangeList) (n : Nat) : Decidable (covered l n) :=
  inferInstanceAs (Decidable (∃ r ∈ l, _ ∧ _))

theorem chainOkB_cons {gap : Nat} {x : Nat × Nat} {rest : RangeList}
    (h : chainOkB gap (x :: rest) = true) :
    x.1 ≤ x.2 ∧ chainOkB gap rest = true ∧
      (∀ y ∈ rest.head?, x.2 + gap < y.1) := by
  match rest with
  | [] =>
    simp only [chainOkB, decide_eq_true_eq] at h
    simp [chainOkB, h]
  | y :: ys =>
    simp only [chainOkB, Bool.and_eq_true, decide_eq_true_eq] at h
    refine ⟨h.1.1, h.2, ?_⟩
    · intro z hz
      simp only [List.head?_cons, Option.mem_def, Option.some.injEq] at hz
      subst hz
      exact h.1.2

theorem chainOkB_cons_of {gap : Nat} {x : Nat × Nat} {rest : RangeList}
    (h1 : x.1 ≤ x.2) (h2 : chainOkB gap rest = true)
    (h3 : ∀ y ∈ rest.head?, x.2 + gap < y.1) :
    chainOkB gap (x :: rest) = true := by
  match rest with
  | [] => simpa [chainOkB] using h1
  | y :: ys =>
    have := h3 y (by simp)
    simp only [chainOkB] at h2 ⊢
    simp only [Bool.and_eq_true, decide_eq_true_eq]
    exact ⟨⟨h1, this⟩, by simpa using h2⟩

theorem canonical_cons {x : Nat × Nat} {rest : RangeList}
    (h : Canonical (x :: rest)) : Canonical rest :=
  (chainOkB_cons h).2.1

theorem canonical_ranges_le {l : RangeList} (h : Canonical l) :
    ∀ r ∈ l, r.1 ≤ r.2 := by
  induction l with
  | nil => intro r hr; cases hr
  | cons x rest ih =>
    intro r hr
    rcases List.mem_cons.1 hr with rfl | hr'
    · exact (chainOkB_cons h).1
    · exact ih (canonical_cons h) r hr'

/-- In a canonical list the head's upper bound is below every later range. -/
theorem canonical_head_lt {x : Nat × Nat} {rest : RangeList}
    (h : Canonical (x :: rest)) : ∀ r ∈ rest, x.2 < r.1 := by
  induction rest generalizing x with
  | nil => intro r hr; cases hr
  | cons y ys ih =>
    intro r hr
    have hxy : x.2 < y.1 := by
      have := (chainOkB_cons h).2.2 y (by simp)
      omega
    rcases List.mem_cons.1 hr with rfl | hr'
    · exact hxy
    · have hy : Canonical (y :: ys) := canonical_cons h
      have := ih hy r hr'
      have hy12 : y.1 ≤ y.2 := canonical_ranges_le hy y (by simp)
      omega

/-- Go `List.Remove()`: removes and returns the lowest CPU of the list; a
panic on the empty list is modelled as `none`. The remainder keeps the
lowest range with its lower bound incremented when it has several members,
and drops it entirely when it is a singleton. -/
def Remove (l : RangeList) : Option (Nat × RangeList) :=
  match l with
  | [] => none  -- Go: panic("cannot remove from empty List")
  | lowestRange :: rest =>
    if lowestRange.1 < lowestRange.2 then
      some (lowestRange.1, (lowestRange.1 + 1, lowestRange.2) :: rest)
    else
      some (lowestRange.1, rest)

/-- **C7.** `Remove` panics (`none`) exactly on the empty list; on a
non-empty canonical list it returns the single lowest CPU of the whole
list, with the remainder as described: lower bound incremented for a
multi-member lowest range, range dropped for a singleton. -/
theorem remove_spec :
    Remove ([] : RangeList) = none ∧
    ∀ (x : Nat × Nat) (rest : RangeList), Canonical (x :: rest) →
      Remove (x :: rest) = some (x.1,
        if x.1 < x.2 then (x.1 + 1, x.2) :: rest else rest) ∧
      covered (x :: rest) x.1 ∧ (∀ d, covered (x :: rest) d → x.1 ≤ d) := by
  refine ⟨rfl, fun x rest hcan => ⟨?_, ?_, ?_⟩⟩
  · by_cases h : x.1 < x.2 <;> simp [Remove, h]
  · exact ⟨x, by simp, Nat.le_refl _, canonical_ranges_le hcan x (by simp)⟩
  · rintro d ⟨r, hr, hr1, hr2⟩
    rcases List.mem_cons.1 hr with rfl | hr'
    · exact hr1
    · have := canonical_head_lt hcan r hr'
      have hx : x.1 ≤ x.2 := canonical_ranges_le hcan x (by simp)
      omega

/-- **C7 witness**: `[[1,3]].Remove() = (1, [[2,3]])` and
`[[5,5]].Remove() = (5, [])`, both via `remove_spec`. -/
theorem remove_spec_witness :
    (Remove [((1 : Nat), (3 : Nat))] = some (1,
      if 1 < 3 then ((2 : Nat), (3 : Nat)) :: ([] : RangeList) else []) ∧
      covered [((1 : Nat), (3 : Nat))] 1 ∧
      (∀ d, covered [((1 : Nat), (3 : Nat))] d → 1 ≤ d)) ∧
    (Remove [((5 : Nat), (5 : Nat))] = some (5,
      if 5 < 5 then ((6 : Nat), (5 : Nat)) :: ([] : RangeList) else []) ∧
      covered [((5 : Nat), (5 : Nat))] 5 ∧
      (∀ d, covered [((5 : Nat), (5 : Nat))] d → 5 ≤ d)) :=
  ⟨remove_spec.2 (1, 3) [] (by decide), remove_spec.2 (5, 5) [] (by decide)⟩

/-! ## `SetAffinity` -/

/-- `syscall.EINVAL` (invalid argument). -/
def EINVAL : Nat := 22

/-- Go `SetAffinity(tid, cpus)`. The OS mutation primitive
`unix.RawSyscall(SYS_SCHED_SETAFFINITY, …)` is abstracted as `os`,
returning the errno (`0` meaning success). The first component records the
trace of masks actually passed to the OS call; the second is the returned
error (`none` for Go `nil`). -/
def SetAffinity (os : Nat → CpuSet → Nat) (tid : Nat) (cpus : CpuSet) :
    List CpuSet × Option Nat :=
  if cpus.length = 0 then ([], some EINVAL)
  else
    ([cpus], if os tid cpus ≠ 0 then some (os tid cpus) else none)

/-- **C8 counterexample.** The one-word all-zero mask `{0}` is an *empty*
affinity mask — the package documents all-zero sets as empty, and indeed no
CPU is a member — yet `SetAffinity` does issue the OS mutation call with it
(trace `[[0]]`, not `[]`), and with an accepting OS returns no error at
all. The empty-mask rejection happens only for zero-length masks. -/
theorem setAffinity_empty_mask_counterexample :
    (∀ c, IsSet [0] c = false) ∧
    (SetAffinity (fun _ _ => 0) 0 [0]).1 = [[0]] ∧
    (SetAffinity (fun _ _ => 0) 0 [0]).2 = none := by
  refine ⟨fun c => ?_, rfl, rfl⟩
  rw [isSet_eq_testBit]
  have : ([0] : CpuSet).getD (c / 64) 0 = 0 := by
    rcases c / 64 with _ | i <;> simp
  rw [this, Nat.zero_testBit, Bool.and_false]

/-- **C8 (amended).** `SetAffinity` rejects every *zero-length* mask before
issuing the OS mutation call, returning `EINVAL`; for every mask of
non-zero length it issues exactly one OS mutation call with the mask as
given and surfaces the OS errno verbatim (`nil` on success). -/
theorem setAffinity_spec (os : Nat → CpuSet → Nat) (tid : Nat) (cpus : CpuSet) :
    (cpus.length = 0 → SetAffinity os tid cpus = ([], some EINVAL)) ∧
    (cpus.length ≠ 0 →
      (SetAffinity os tid cpus).1 = [cpus] ∧
      (SetAffinity os tid cpus).2 =
        (if os tid cpus ≠ 0 then some (os tid cpus) else none)) := by
  constructor
  · intro h
    rw [SetAffinity, if_pos h]
  · intro h
    rw [SetAffinity, if_neg h]
    exact ⟨rfl, rfl⟩

/-- **C8 witness**: the two branches of `setAffinity_spec` at concrete
inputs — a zero-length mask, and a one-word mask under a failing OS. -/
theorem setAffinity_spec_witness :
    SetAffinity (fun _ _ => 0) 7 [] = ([], some EINVAL) ∧
    ((SetAffinity (fun _ _ => 3) 7 [9]).1 = [[9]] ∧
      (SetAffinity (fun _ _ => 3) 7 [9]).2 =
        (if (fun (_ : Nat) (_ : CpuSet) => 3) 7 [9] ≠ 0
         then some ((fun (_ : Nat) (_ : CpuSet) => 3) 7 [9]) else none)) :=
  ⟨(setAffinity_spec (fun _ _ => 0) 7 []).1 rfl,
   (setAffinity_spec (fun _ _ => 3) 7 [9]).2 (by decide)⟩

/-! ## `Affinity` and the shared size cache `setsize`

Go `Affinity` (file `part_000`, lines 151–188) probes the needed mask size
with `SYS_SCHED_GETAFFINITY`, doubling on `EINVAL`, and then publishes the
discovered size into the process-wide atomic `setsize` by a
compare-and-swap loop. The control flow of one `Affinity` call is embedded
as a state machine; any number of concurrent calls interleave their steps
on the shared cache. The syscall outcome (success / `EINVAL` / other
error) is non-deterministic in the step relation. -/

/-- Control state of one in-flight `Affinity` call. -/
inductive AffinityPhase where
  /-- before `setlenStart := setsize.Load(); setlen := setlenStart` -/
  | start
  /-- about to issue the syscall with a `setlen`-word buffer -/
  | probing (setlenStart setlen : Nat)
  /-- about to attempt `setsize.CompareAndSwap(setlenStart, setlen)` -/
  | publishing (setlenStart setlen : Nat)
  /-- CAS failed; about to execute `setlenStart = setsize.Load()` and the
  `setlenStart > setlen` check -/
  | rereading (setlen : Nat)
  /-- returned (with a set or an error) -/
  | done
  deriving DecidableEq

/-- One step of a single `Affinity` call: given the current shared
`setsize` value, the phase and the new shared value after the step. -/
inductive ThreadStep : AffinityPhase → Nat → AffinityPhase → Nat → Prop where
  /-- `setlenStart := setsize.Load(); setlen := setlenStart` -/
  | load (cache : Nat) :
      ThreadStep .start cache (.probing cache cache) cache
  /-- the syscall succeeds -/
  | syscallOk (a b cache : Nat) :
      ThreadStep (.probing a b) cache (.publishing a b) cache
  /-- the syscall fails with `EINVAL`: `setlen *= 2; continue` -/
  | syscallEinval (a b cache : Nat) :
      ThreadStep (.probing a b) cache (.probing a (b * 2)) cache
  /-- the syscall fails with any other errno: `return nil, e` -/
  | syscallErr (a b cache : Nat) :
      ThreadStep (.probing a b) cache .done cache
  /-- `CompareAndSwap(setlenStart, setlen)` succeeds: the shared value
  equals `setlenStart` and is replaced by `setlen` -/
  | casSuccess (a b : Nat) :
      ThreadStep (.publishing a b) a .done b
  /-- the CAS fails because the shared value moved -/
  | casFail (a b cache : Nat) (h : cache ≠ a) :
      ThreadStep (.publishing a b) cache (.rereading b) cache
  /-- re-read observes `setlenStart > setlen`: someone else already
  published a larger size — stop -/
  | rereadDone (b cache : Nat) (h : b < cache) :
      ThreadStep (.rereading b) cache .done cache
  /-- re-read observes `setlenStart ≤ setlen`: retry the CAS with the
  freshly read expected value -/
  | rereadRetry (b cache : Nat) (h : ¬ b < cache) :
      ThreadStep (.rereading b) cache (.publishing cache b) cache

/-- Global configuration: the shared `setsize` cache plus the control
state of every concurrent `Affinity` call. -/
structure AffinityConfig where
  setsize : Nat
  threads : List AffinityPhase

/-- Interleaving semantics: some thread takes one step. -/
inductive Step : AffinityConfig → AffinityConfig → Prop where
  | thread (i : Nat) (c : AffinityConfig) (p p' : AffinityPhase)
      (cache' : Nat) (hget : c.threads[i]? = some p)
      (hstep : ThreadStep p c.setsize p' cache') :
      Step c ⟨cache', c.threads.set i p'⟩

/-- Thread-local invariant: whenever a CAS with expected value
`setlenStart` and new value `setlen` may be attempted,
`setlenStart ≤ setlen`. -/
def PhaseInv : AffinityPhase → Prop
  | .probing a b => a ≤ b
  | .publishing a b => a ≤ b
  | _ => True

def Inv (c : AffinityConfig) : Prop := ∀ p ∈ c.threads, PhaseInv p

theorem threadStep_cache_mono {p : AffinityPhase} {cache : Nat}
    {p' : AffinityPhase} {cache' : Nat} (hinv : PhaseInv p)
    (h : ThreadStep p cache p' cache') :
    cache ≤ cache' ∧ PhaseInv p' := by
  cases h with
  | load cache => exact ⟨Nat.le_refl _, Nat.le_refl _⟩
  | syscallOk a b cache => exact ⟨Nat.le_refl _, hinv⟩
  | syscallEinval a b cache =>
    refine ⟨Nat.le_refl _, ?_⟩
    have : a ≤ b := hinv
    simp only [PhaseInv]
    omega
  | syscallErr a b cache => exact ⟨Nat.le_refl _, trivial⟩
  | casSuccess a b => exact ⟨hinv, trivial⟩
  | casFail a b cache h => exact ⟨Nat.le_refl _, trivial⟩
  | rereadDone b cache h => exact ⟨Nat.le_refl _, trivial⟩
  | rereadRetry b cache h =>
    refine ⟨Nat.le_refl _, ?_⟩
    simp only [PhaseInv]
    omega

/-- **C9.** The shared `setsize` cache is monotonically non-decreasing:
from any initial population of concurrent `Affinity` calls, the invariant
holds, every interleaved step preserves it and never decreases the cache,
and hence the cache never decreases along any execution. -/
theorem affinity_cache_monotone :
    (∀ n cache0, Inv ⟨cache0, List.replicate n AffinityPhase.start⟩) ∧
    (∀ c c', Inv c → Step c c' → c.setsize ≤ c'.setsize ∧ Inv c') ∧
    (∀ c c', Inv c → Relation.ReflTransGen Step c c' →
      c.setsize ≤ c'.setsize) := by
  have hstep : ∀ c c', Inv c → Step c c' → c.setsize ≤ c'.setsize ∧ Inv c' := by
    intro c c' hInv hstep
    cases hstep with
    | thread i c p p' cache' hget htstep =>
      have hp : PhaseInv p := hInv p (List.getElem?_mem hget)
      rcases threadStep_cache_mono hp htstep with ⟨hmono, hp'⟩
      refine ⟨hmono, ?_⟩
      intro q hq
      rcases List.mem_or_eq_of_mem_set hq with hq' | rfl
      · exact hInv q hq'
      · exact hp'
  have hreachInv : ∀ c c', Inv c → Relation.ReflTransGen Step c c' → Inv c' := by
    intro c c' hInv h
    induction h with
    | refl => exact hInv
    | tail _ hbc ih => exact (hstep _ _ ih hbc).2
  refine ⟨?_, hstep, ?_⟩
  · intro n cache0 p hp
    have : p = AffinityPhase.start := List.eq_of_mem_replicate hp
    subst this
    trivial
  · intro c c' hInv hreach
    induction hreach with
    | refl => exact Nat.le_refl _
    | tail hab hbc ih =>
      exact Nat.le_trans ih (hstep _ _ (hreachInv _ _ hInv hab) hbc).1

/-- **C9 witness**: a concrete two-step execution (load, then a successful
CAS) starting from one caller and cache value 1. -/
theorem affinity_cache_monotone_witness :
    (⟨1, [AffinityPhase.start]⟩ : AffinityConfig).setsize ≤
      (⟨1, [AffinityPhase.probing 1 1]⟩ : AffinityConfig).setsize :=
  (affinity_cache_monotone.2.1
    ⟨1, [AffinityPhase.start]⟩ ⟨1, [AffinityPhase.probing 1 1]⟩
    (affinity_cache_monotone.1 1 1)
    (Step.thread 0 ⟨1, [AffinityPhase.start]⟩ AffinityPhase.start
      (AffinityPhase.probing 1 1) 1 rfl (ThreadStep.load 1))).1

/-! ## `Set.List`: the bitmask → range-list conversion machine

Go `Set.List` (file `part_000`, lines 220–317) walks the mask with three
state variables: the CPU counter `cpuno`, the word index `cpuwordidx` and
the single-bit mask `cpuwordmask`. The mask is always `1 << p` for some
`p < 64` (a mask that has just overflowed to `0` is immediately
renormalised to `1` with `cpuwordidx++`), so the embedding carries the bit
position `p` instead of the mask; `cpuwordmask == 1` is `p == 0`, the
shift `cpuwordmask <<= 1` is `p + 1`, overflow `cpuwordmask == 0` is
`p + 1 == 64`.

Each inner loop of the Go code becomes one structurally recursive scanning
function, recursing on an explicit counter that mirrors the loop's own
bound (at most `64 - p` shifts within a word; at most `len - idx` words to
fast-forward). The unbounded outer loop becomes `listGo` with fuel: the
Go loop appends one range per iteration, so `64 * len + 2` fuel can never
be exhausted (established by the master theorem `listGo_eq_runsFrom`). -/

/-- The inner scan of Go `Set.List` *with* the overflow check
(lines 232–246 scanning for a set bit, and lines 278–291 scanning for a
cleared bit): starting at bit `p` of word `idx`, look for a bit equal to
`target`; `.inl (cpuno', p')` means found at bit `p'`, `.inr (cpuno',
idx')` means the mask fell off the word (`cpuwordidx++; cpuwordmask = 1`).
The counter starts at `64 - p`. -/
def scanOv (s : CpuSet) (target : Bool) :
    Nat → Nat → Nat → Nat → (Nat × Nat) ⊕ (Nat × Nat)
  | 0, cpuno, idx, _ => Sum.inr (cpuno, idx + 1)
  | fuel + 1, cpuno, idx, p =>
    if (s.getD idx 0).testBit p = target then Sum.inl (cpuno, p)
    else if p + 1 = 64 then Sum.inr (cpuno + 1, idx + 1)
    else scanOv s target fuel (cpuno + 1) idx (p + 1)

/-- The inner scan of Go `Set.List` *without* an overflow check
(lines 258–264 scanning for a set bit in a word known non-zero, and lines
308–315 scanning for a cleared bit in a word known not all-ones): the Go
loop would not terminate if no such bit existed, which the surrounding
invariants rule out; the counter (`64 - p`) makes the recursion
structural and is never exhausted on reachable states. -/
def scanNoOv (s : CpuSet) (target : Bool) : Nat → Nat → Nat → Nat → Nat × Nat
  | 0, cpuno, _, p => (cpuno, p)
  | fuel + 1, cpuno, idx, p =>
    if (s.getD idx 0).testBit p = target then (cpuno, p)
    else scanNoOv s target fuel (cpuno + 1) idx (p + 1)

/-- The fast-forward loops of Go `Set.List`
(`for cpuwordidx < setlen && s[cpuwordidx] == target { cpuno += 64;
cpuwordidx++ }`, lines 249–252 with `target = 0` and lines 295–298 with
`target = ^uint64(0)`). The counter starts at `len - idx`. -/
def skipWords (s : CpuSet) (target : Nat) : Nat → Nat → Nat → Nat × Nat
  | 0, cpuno, idx => (cpuno, idx)
  | fuel + 1, cpuno, idx =>
    if idx < s.length ∧ s.getD idx 0 = target then
      skipWords s target fuel (cpuno + 64) (idx + 1)
    else (cpuno, idx)

/-- The outer `findNextCPUInWord` loop of Go `Set.List`, with fuel. -/
def listGo (s : CpuSet) : Nat → RangeList → Nat → Nat → Nat → RangeList
  | 0, cpulist, _, _, _ => cpulist
  | fuel + 1, cpulist, cpuno, cpuwordidx, p =>
    -- lines 232–246: if inside a word, find the next set bit or fall off
    let a1 : Nat × Nat × Nat :=
      if p ≠ 0 then
        match scanOv s true (64 - p) cpuno cpuwordidx p with
        | Sum.inl (cpuno', p') => (cpuno', cpuwordidx, p')
        | Sum.inr (cpuno', idx') => (cpuno', idx', 0)
      else (cpuno, cpuwordidx, p)
    let cpuno := a1.1
    let cpuwordidx := a1.2.1
    let p := a1.2.2
    -- lines 249–252: fast-forward all-0s words
    let b1 := skipWords s 0 (s.length - cpuwordidx) cpuno cpuwordidx
    let cpuno := b1.1
    let cpuwordidx := b1.2
    -- lines 253–255: storage exhausted?
    if s.length ≤ cpuwordidx then cpulist
    else
      -- lines 258–264: find the first set bit of this non-zero word
      let c1 := scanNoOv s true (64 - p) cpuno cpuwordidx p
      let cpuno := c1.1
      let p := c1.2
      -- lines 267–274: open the range, step to the next CPU
      let cpufrom := cpuno
      let cpuno := cpuno + 1
      let d1 : Nat × Nat :=
        if p + 1 = 64 then (cpuwordidx + 1, 0) else (cpuwordidx, p + 1)
      let cpuwordidx := d1.1
      let p := d1.2
      -- lines 278–292: if inside a word, find the next cleared bit
      let e1 : (Nat × Nat) ⊕ (Nat × Nat) :=
        if p ≠ 0 then scanOv s false (64 - p) cpuno cpuwordidx p
        else Sum.inr (cpuno, cpuwordidx)
      match e1 with
      | Sum.inl (cpuno', p') =>
        -- close the range and continue the outer loop
        listGo s fuel (cpulist ++ [(cpufrom, cpuno' - 1)]) cpuno' cpuwordidx p'
      | Sum.inr (cpuno2, idx2) =>
        -- lines 295–298: fast-forward all-1s words
        let f1 := skipWords s (2 ^ 64 - 1) (s.length - idx2) cpuno2 idx2
        let cpuno3 := f1.1
        let idx3 := f1.2
        -- lines 301–304: storage exhausted: close the final range
        if s.length ≤ idx3 then cpulist ++ [(cpufrom, cpuno3 - 1)]
        else
          -- lines 308–315: find the first cleared bit, close the range
          let h1 := scanNoOv s false 64 cpuno3 idx3 0
          listGo s fuel (cpulist ++ [(cpufrom, h1.1 - 1)]) h1.1 idx3 h1.2

/-- Go `Set.List()`: convert the bitmask to its list of CPU ranges. -/
def SetList (s : CpuSet) : RangeList := listGo s (64 * s.length + 2) [] 0 0 0

/-- The part of the outer loop of `Set.List` after the mask fell off a word
during range closing (lines 295–315): a verbatim copy of the corresponding
part of `listGo`'s body, named so the proofs can treat it once. The
equality with `listGo`'s own body is checked definitionally in
`listGo_succ`. -/
def listGoTail (s : CpuSet) (fuel : Nat) (cpulist : RangeList)
    (cpufrom cpuno2 idx2 : Nat) : RangeList :=
  let f1 := skipWords s (2 ^ 64 - 1) (s.length - idx2) cpuno2 idx2
  let cpuno3 := f1.1
  let idx3 := f1.2
  if s.length ≤ idx3 then cpulist ++ [(cpufrom, cpuno3 - 1)]
  else
    let h1 := scanNoOv s false 64 cpuno3 idx3 0
    listGo s fuel (cpulist ++ [(cpufrom, h1.1 - 1)]) h1.1 idx3 h1.2

/-- The body of the outer loop of `Set.List` after the initial
find-next-set-bit block (lines 249–315): a verbatim copy of the
corresponding part of `listGo`'s body (see `listGo_succ`). -/
def listGoCore (s : CpuSet) (fuel : Nat) (cpulist : RangeList)
    (cpuno cpuwordidx p : Nat) : RangeList :=
  let b1 := skipWords s 0 (s.length - cpuwordidx) cpuno cpuwordidx
  let cpuno := b1.1
  let cpuwordidx := b1.2
  if s.length ≤ cpuwordidx then cpulist
  else
    let c1 := scanNoOv s true (64 - p) cpuno cpuwordidx p
    let cpuno := c1.1
    let p := c1.2
    let cpufrom := cpuno
    let cpuno := cpuno + 1
    let d1 : Nat × Nat :=
      if p + 1 = 64 then (cpuwordidx + 1, 0) else (cpuwordidx, p + 1)
    let cpuwordidx := d1.1
    let p := d1.2
    let e1 : (Nat × Nat) ⊕ (Nat × Nat) :=
      if p ≠ 0 then scanOv s false (64 - p) cpuno cpuwordidx p
      else Sum.inr (cpuno, cpuwordidx)
    match e1 with
    | Sum.inl (cpuno', p') =>
      listGo s fuel (cpulist ++ [(cpufrom, cpuno' - 1)]) cpuno' cpuwordidx p'
    | Sum.inr (cpuno2, idx2) => listGoTail s fuel cpulist cpufrom cpuno2 idx2

/-- One unfolding of `listGo`, phrased through `listGoCore` — definitional. -/
theorem listGo_succ (s : CpuSet) (fuel : Nat) (acc : RangeList)
    (c i p : Nat) :
    listGo s (fuel + 1) acc c i p =
      (let a1 : Nat × Nat × Nat :=
        if p ≠ 0 then
          match scanOv s true (64 - p) c i p with
          | Sum.inl (c', p') => (c', i, p')
          | Sum.inr (c', i') => (c', i', 0)
        else (c, i, p)
      listGoCore s fuel acc a1.1 a1.2.1 a1.2.2) := by
  rfl

/-! ### Reference: maximal runs of set bits -/

/-- Linear search for the first member at position `≥ c` (bounded by
fuel). -/
def nextSet (s : CpuSet) : Nat → Nat → Option Nat
  | 0, _ => none
  | fuel + 1, c => if IsSet s c then some c else nextSet s fuel (c + 1)

/-- Linear search for the first non-member position `≥ c` (bounded by
fuel; position `64 * len` is always a non-member). -/
def nextClear (s : CpuSet) : Nat → Nat → Nat
  | 0, c => c
  | fuel + 1, c => if IsSet s c = false then c else nextClear s fuel (c + 1)

def nextSetFrom (s : CpuSet) (c : Nat) : Option Nat :=
  nextSet s (64 * s.length - c) c

def nextClearFrom (s : CpuSet) (c : Nat) : Nat :=
  nextClear s (64 * s.length - c) c

theorem nextSet_some (s : CpuSet) :
    ∀ fuel c a, nextSet s fuel c = some a → c ≤ a ∧ IsSet s a = true := by
  intro fuel
  induction fuel with
  | zero => intro c a h; cases h
  | succ n ih =>
    intro c a h
    rw [nextSet] at h
    by_cases hc : IsSet s c = true
    · rw [if_pos hc] at h
      cases h
      exact ⟨Nat.le_refl _, hc⟩
    · rw [if_neg hc] at h
      rcases ih (c + 1) a h with ⟨h1, h2⟩
      exact ⟨by omega, h2⟩

theorem nextClear_ge (s : CpuSet) :
    ∀ fuel c, c ≤ nextClear s fuel c := by
  intro fuel
  induction fuel with
  | zero => intro c; exact Nat.le_refl _
  | succ n ih =>
    intro c
    rw [nextClear]
    by_cases hc : IsSet s c = false
    · rw [if_pos hc]
    · rw [if_neg hc]
      exact Nat.le_trans (by omega) (ih (c + 1))

theorem isSet_lt (s : CpuSet) (n : Nat) (h : IsSet s n = true) :
    n < 64 * s.length := by
  by_contra hge
  rw [isSet_out_of_range s n (by omega)] at h
  cases h

/-- Maximal runs of consecutive members, starting the search at `c`: the
reference the machine is proved against. -/
def runsFrom (s : CpuSet) (c : Nat) : RangeList :=
  match h : nextSetFrom s c with
  | none => []
  | some a => (a, nextClearFrom s (a + 1) - 1) :: runsFrom s (nextClearFrom s (a + 1))
termination_by 64 * s.length + 1 - c
decreasing_by
  rcases nextSet_some s _ c a h with ⟨hca, hset⟩
  have halt := isSet_lt s a hset
  have := nextClear_ge s (64 * s.length - (a + 1)) (a + 1)
  have hb : a + 1 ≤ nextClearFrom s (a + 1) := this
  omega

/-! ### Soundness and completeness of the searches -/

theorem nextSet_none_sound (s : CpuSet) :
    ∀ fuel c, nextSet s fuel c = none →
      ∀ m, c ≤ m → m < c + fuel → IsSet s m = false := by
  intro fuel
  induction fuel with
  | zero => intro c _ m h1 h2; omega
  | succ n ih =>
    intro c h m h1 h2
    rw [nextSet] at h
    by_cases hc : IsSet s c = true
    · rw [if_pos hc] at h; cases h
    · rw [if_neg hc] at h
      by_cases hmc : m = c
      · subst hmc
        revert hc; cases IsSet s m <;> simp
      · exact ih (c + 1) h m (by omega) (by omega)

theorem nextSetFrom_none_sound (s : CpuSet) (c : Nat)
    (h : nextSetFrom s c = none) : ∀ m, c ≤ m → IsSet s m = false := by
  intro m hm
  by_cases hmN : m < 64 * s.length
  · exact nextSet_none_sound s _ c h m hm (by rw [nextSetFrom] at h; omega)
  · exact isSet_out_of_range s m (by omega)

theorem nextSet_some_sound (s : CpuSet) :
    ∀ fuel c a, nextSet s fuel c = some a →
      ∀ m, c ≤ m → m < a → IsSet s m = false := by
  intro fuel
  induction fuel with
  | zero => intro c a h; cases h
  | succ n ih =>
    intro c a h m h1 h2
    rw [nextSet] at h
    by_cases hc : IsSet s c = true
    · rw [if_pos hc] at h
      cases h
      omega
    · rw [if_neg hc] at h
      by_cases hmc : m = c
      · subst hmc
        revert hc; cases IsSet s m <;> simp
      · exact ih (c + 1) a h m (by omega) h2

theorem nextSetFrom_eq_some (s : CpuSet) (c a : Nat) (hca : c ≤ a)
    (hset : IsSet s a = true)
    (hclear : ∀ m, c ≤ m → m < a → IsSet s m = false) :
    nextSetFrom s c = some a := by
  have ha := isSet_lt s a hset
  have hgen : ∀ fuel c, c ≤ a → a - c < fuel →
      (∀ m, c ≤ m → m < a → IsSet s m = false) →
      nextSet s fuel c = some a := by
    intro fuel
    induction fuel with
    | zero => intro c h1 h2 h3; omega
    | succ n ih =>
      intro c h1 h2 h3
      rw [nextSet]
      by_cases hc : c = a
      · subst hc; rw [if_pos hset]
      · have hcf : IsSet s c = false := h3 c (Nat.le_refl _) (by omega)
        rw [if_neg (by simp [hcf])]
        exact ih (c + 1) (by omega) (by omega) (fun m hm1 hm2 => h3 m (by omega) hm2)
  exact hgen _ c hca (by omega) hclear

theorem nextSetFrom_eq_none (s : CpuSet) (c : Nat)
    (hall : ∀ m, c ≤ m → IsSet s m = false) : nextSetFrom s c = none := by
  have hgen : ∀ fuel c, (∀ m, c ≤ m → IsSet s m = false) →
      nextSet s fuel c = none := by
    intro fuel
    induction fuel with
    | zero => intro c _; rfl
    | succ n ih =>
      intro c h
      rw [nextSet, if_neg (by simp [h c (Nat.le_refl _)])]
      exact ih (c + 1) (fun m hm => h m (by omega))
  exact hgen _ c hall

theorem nextClear_le (s : CpuSet) :
    ∀ fuel c, nextClear s fuel c ≤ c + fuel := by
  intro fuel
  induction fuel with
  | zero => intro c; exact Nat.le_refl _
  | succ n ih =>
    intro c
    rw [nextClear]
    by_cases hc : IsSet s c = false
    · rw [if_pos hc]; omega
    · rw [if_neg hc]
      have := ih (c + 1)
      omega

theorem nextClear_sound (s : CpuSet) :
    ∀ fuel c, (∀ m, c ≤ m → m < nextClear s fuel c → IsSet s m = true) ∧
      (IsSet s (nextClear s fuel c) = false ∨ nextClear s fuel c = c + fuel) := by
  intro fuel
  induction fuel with
  | zero =>
    intro c
    exact ⟨fun m h1 h2 => by rw [nextClear] at h2; omega, Or.inr rfl⟩
  | succ n ih =>
    intro c
    rw [nextClear]
    by_cases hc : IsSet s c = false
    · rw [if_pos hc]
      exact ⟨fun m h1 h2 => by omega, Or.inl hc⟩
    · rw [if_neg hc]
      have hct : IsSet s c = true := by revert hc; cases IsSet s c <;> simp
      rcases ih (c + 1) with ⟨ih1, ih2⟩
      refine ⟨fun m h1 h2 => ?_, by rcases ih2 with h | h; exact Or.inl h; exact Or.inr (by omega)⟩
      by_cases hmc : m = c
      · subst hmc; exact hct
      · exact ih1 m (by omega) h2

/-- `nextClearFrom` at a position `≤ 64*len` lands on a genuine
non-member, runs over members only, and stays within `64*len`. -/
theorem nextClearFrom_sound (s : CpuSet) (c : Nat) (hc : c ≤ 64 * s.length) :
    (∀ m, c ≤ m → m < nextClearFrom s c → IsSet s m = true) ∧
      IsSet s (nextClearFrom s c) = false ∧
      nextClearFrom s c ≤ 64 * s.length := by
  rcases nextClear_sound s (64 * s.length - c) c with ⟨h1, h2⟩
  have hle := nextClear_le s (64 * s.length - c) c
  refine ⟨h1, ?_, by rw [nextClearFrom]; omega⟩
  rcases h2 with h | h
  · exact h
  · rw [nextClearFrom, h]
    exact isSet_out_of_range s _ (by omega)

theorem nextClearFrom_eq (s : CpuSet) (c b : Nat) (hcb : c ≤ b)
    (hb : IsSet s b = false) (hrun : ∀ m, c ≤ m → m < b → IsSet s m = true)
    (hbN : b ≤ 64 * s.length) :
    nextClearFrom s c = b := by
  have hgen : ∀ fuel c, c ≤ b → b - c ≤ fuel →
      (∀ m, c ≤ m → m < b → IsSet s m = true) →
      nextClear s fuel c = b := by
    intro fuel
    induction fuel with
    | zero => intro c h1 h2 _; rw [nextClear]; omega
    | succ n ih =>
      intro c h1 h2 h3
      rw [nextClear]
      by_cases hc : c = b
      · subst hc; rw [if_pos hb]
      · have hct : IsSet s c = true := h3 c (Nat.le_refl _) (by omega)
        rw [if_neg (by simp [hct])]
        exact ih (c + 1) (by omega) (by omega) (fun m hm1 hm2 => h3 m (by omega) hm2)
  exact hgen _ c hcb (by omega) hrun

/-! ### Unfolding `runsFrom` -/

theorem runsFrom_of_none (s : CpuSet) (c : Nat)
    (h : nextSetFrom s c = none) : runsFrom s c = [] := by
  rw [runsFrom]
  split
  · rfl
  · rename_i a ha
    rw [h] at ha
    cases ha

theorem runsFrom_of_some (s : CpuSet) (c a : Nat)
    (h : nextSetFrom s c = some a) :
    runsFrom s c = (a, nextClearFrom s (a + 1) - 1) ::
      runsFrom s (nextClearFrom s (a + 1)) := by
  rw [runsFrom]
  split
  · rename_i hnone
    rw [h] at hnone
    cases hnone
  · rename_i a' ha
    rw [h] at ha
    injection ha with ha
    subst ha
    rfl

/-! ### Properties of `runsFrom` -/

theorem covered_cons (r : Nat × Nat) (rest : RangeList) (n : Nat) :
    covered (r :: rest) n ↔ (r.1 ≤ n ∧ n ≤ r.2) ∨ covered rest n := by
  simp [covered]

theorem covered_nil (n : Nat) : ¬ covered ([] : RangeList) n := by
  simp [covered]

/-- Bundle of facts available at a `some` step of `runsFrom`. -/
theorem runsFrom_step_facts (s : CpuSet) (c a : Nat)
    (h : nextSetFrom s c = some a) :
    c ≤ a ∧ IsSet s a = true ∧ a < 64 * s.length ∧
      (∀ m, c ≤ m → m < a → IsSet s m = false) ∧
      a + 1 ≤ nextClearFrom s (a + 1) ∧
      (∀ m, a + 1 ≤ m → m < nextClearFrom s (a + 1) → IsSet s m = true) ∧
      IsSet s (nextClearFrom s (a + 1)) = false ∧
      nextClearFrom s (a + 1) ≤ 64 * s.length := by
  rcases nextSet_some s _ c a h with ⟨hca, hset⟩
  have haN := isSet_lt s a hset
  rcases nextClearFrom_sound s (a + 1) (by omega) with ⟨hrun, hclear, hbN⟩
  exact ⟨hca, hset, haN, nextSet_some_sound s _ c a h,
    nextClear_ge s _ (a + 1), hrun, hclear, hbN⟩

/-- Membership: `runsFrom s c` covers exactly the members at positions
`≥ c`. -/
theorem runsFrom_covered (s : CpuSet) (c n : Nat) :
    covered (runsFrom s c) n ↔ (c ≤ n ∧ IsSet s n = true) := by
  have hgen : ∀ M c, 64 * s.length + 1 - c ≤ M → ∀ n,
      (covered (runsFrom s c) n ↔ (c ≤ n ∧ IsSet s n = true)) := by
    intro M
    induction M with
    | zero =>
      intro c hc n
      have hnone : nextSetFrom s c = none :=
        nextSetFrom_eq_none s c fun m hm =>
          isSet_out_of_range s m (by omega)
      rw [runsFrom_of_none s c hnone]
      constructor
      · intro h; exact absurd h (covered_nil n)
      · rintro ⟨h1, h2⟩
        have := isSet_lt s n h2
        omega
    | succ M ih =>
      intro c hc n
      cases hns : nextSetFrom s c with
      | none =>
        rw [runsFrom_of_none s c hns]
        constructor
        · intro h; exact absurd h (covered_nil n)
        · rintro ⟨h1, h2⟩
          rw [nextSetFrom_none_sound s c hns n h1] at h2
          cases h2
      | some a =>
        rw [runsFrom_of_some s c a hns]
        rcases runsFrom_step_facts s c a hns with
          ⟨hca, hset, haN, hclear, hab, hrun, hbclear, hbN⟩
        rw [covered_cons]
        have ihb := ih (nextClearFrom s (a + 1)) (by omega) n
        rw [ihb]
        constructor
        · rintro (⟨h1, h2⟩ | ⟨h1, h2⟩)
          · refine ⟨by omega, ?_⟩
            by_cases hna : n = a
            · subst hna; exact hset
            · exact hrun n (by simp at h1 h2 ⊢; omega) (by simp at h1 h2 ⊢; omega)
          · exact ⟨by omega, h2⟩
        · rintro ⟨h1, h2⟩
          by_cases hna : n < a
          · rw [hclear n h1 hna] at h2; cases h2
          · by_cases hnb : n < nextClearFrom s (a + 1)
            · exact Or.inl ⟨by simp; omega, by simp; omega⟩
            · refine Or.inr ⟨?_, h2⟩
              by_cases hnb' : n = nextClearFrom s (a + 1)
              · rw [hnb'] at h2
                rw [hbclear] at h2
                cases h2
              · omega
  exact hgen (64 * s.length + 1 - c) c (Nat.le_refl _) n

/-- Every range of `runsFrom s c` starts at a member position `≥ c`. -/
theorem runsFrom_ranges (s : CpuSet) (c : Nat) :
    ∀ r ∈ runsFrom s c, c ≤ r.1 ∧ IsSet s r.1 = true ∧ r.1 ≤ r.2 := by
  have hgen : ∀ M c, 64 * s.length + 1 - c ≤ M →
      ∀ r ∈ runsFrom s c, c ≤ r.1 ∧ IsSet s r.1 = true ∧ r.1 ≤ r.2 := by
    intro M
    induction M with
    | zero =>
      intro c hc r hr
      have hnone : nextSetFrom s c = none :=
        nextSetFrom_eq_none s c fun m hm =>
          isSet_out_of_range s m (by omega)
      rw [runsFrom_of_none s c hnone] at hr
      cases hr
    | succ M ih =>
      intro c hc r hr
      cases hns : nextSetFrom s c with
      | none =>
        rw [runsFrom_of_none s c hns] at hr
        cases hr
      | some a =>
        rw [runsFrom_of_some s c a hns] at hr
        rcases runsFrom_step_facts s c a hns with
          ⟨hca, hset, haN, hclear, hab, hrun, hbclear, hbN⟩
        rcases List.mem_cons.1 hr with rfl | hr'
        · exact ⟨hca, hset, by simp; omega⟩
        · rcases ih (nextClearFrom s (a + 1)) (by omega) r hr' with ⟨h1, h2, h3⟩
          exact ⟨by omega, h2, h3⟩
  exact hgen (64 * s.length + 1 - c) c (Nat.le_refl _)

/-- `runsFrom` is canonical-minimal: ranges valid, strictly increasing,
separated by at least one absent CPU. -/
theorem runsFrom_canonicalMin (s : CpuSet) (c : Nat) :
    chainOkB 1 (runsFrom s c) = true := by
  have hgen : ∀ M c, 64 * s.length + 1 - c ≤ M →
      chainOkB 1 (runsFrom s c) = true := by
    intro M
    induction M with
    | zero =>
      intro c hc
      have hnone : nextSetFrom s c = none :=
        nextSetFrom_eq_none s c fun m hm =>
          isSet_out_of_range s m (by omega)
      rw [runsFrom_of_none s c hnone]
      rfl
    | succ M ih =>
      intro c hc
      cases hns : nextSetFrom s c with
      | none =>
        rw [runsFrom_of_none s c hns]
        rfl
      | some a =>
        rw [runsFrom_of_some s c a hns]
        rcases runsFrom_step_facts s c a hns with
          ⟨hca, hset, haN, hclear, hab, hrun, hbclear, hbN⟩
        apply chainOkB_cons_of
        · simp
          omega
        · exact ih (nextClearFrom s (a + 1)) (by omega)
        · intro y hy
          have hymem : y ∈ runsFrom s (nextClearFrom s (a + 1)) :=
            List.mem_of_mem_head? hy
          rcases runsFrom_ranges s _ y hymem with ⟨h1, h2, _⟩
          have : y.1 ≠ nextClearFrom s (a + 1) := by
            intro he
            rw [he, hbclear] at h2
            cases h2
          simp
          omega
  exact hgen (64 * s.length + 1 - c) c (Nat.le_refl _)

/-- Length bound on `runsFrom` (fuel sufficiency for the machine). -/
theorem runsFrom_length (s : CpuSet) (c : Nat) :
    (runsFrom s c).length ≤ 64 * s.length + 1 - c := by
  have hgen : ∀ M c, 64 * s.length + 1 - c ≤ M →
      (runsFrom s c).length ≤ 64 * s.length + 1 - c := by
    intro M
    induction M with
    | zero =>
      intro c hc
      have hnone : nextSetFrom s c = none :=
        nextSetFrom_eq_none s c fun m hm =>
          isSet_out_of_range s m (by omega)
      rw [runsFrom_of_none s c hnone]
      simp
    | succ M ih =>
      intro c hc
      cases hns : nextSetFrom s c with
      | none =>
        rw [runsFrom_of_none s c hns]
        simp
      | some a =>
        rw [runsFrom_of_some s c a hns]
        rcases runsFrom_step_facts s c a hns with
          ⟨hca, hset, haN, hclear, hab, hrun, hbclear, hbN⟩
        have := ih (nextClearFrom s (a + 1)) (by omega)
        simp only [List.length_cons]
        omega
  exact hgen (64 * s.length + 1 - c) c (Nat.le_refl _)

/-- If no bit at position `c` is set, searching from `c` and from `c + 1`
give the same runs. -/
theorem runsFrom_skip (s : CpuSet) (c : Nat) (h : IsSet s c = false) :
    runsFrom s c = runsFrom s (c + 1) := by
  cases hns : nextSetFrom s (c + 1) with
  | none =>
    have : nextSetFrom s c = none := by
      apply nextSetFrom_eq_none
      intro m hm
      by_cases hmc : m = c
      · subst hmc; exact h
      · exact nextSetFrom_none_sound s (c + 1) hns m (by omega)
    rw [runsFrom_of_none s c this, runsFrom_of_none s (c + 1) hns]
  | some a =>
    rcases runsFrom_step_facts s (c + 1) a hns with
      ⟨hca, hset, haN, hclear, hab, hrun, hbclear, hbN⟩
    have : nextSetFrom s c = some a := by
      apply nextSetFrom_eq_some s c a (by omega) hset
      intro m hm1 hm2
      by_cases hmc : m = c
      · subst hmc; exact h
      · exact hclear m (by omega) hm2
    rw [runsFrom_of_some s c a this, runsFrom_of_some s (c + 1) a hns]

/-- Iterated `runsFrom_skip` over a clear interval. -/
theorem runsFrom_skip_many (s : CpuSet) (c c' : Nat) (hcc : c ≤ c')
    (h : ∀ m, c ≤ m → m < c' → IsSet s m = false) :
    runsFrom s c = runsFrom s c' := by
  have hgen : ∀ k c, (∀ m, c ≤ m → m < c + k → IsSet s m = false) →
      runsFrom s c = runsFrom s (c + k) := by
    intro k
    induction k with
    | zero => intro c _; rfl
    | succ k ih =>
      intro c hclear
      rw [runsFrom_skip s c (hclear c (Nat.le_refl _) (by omega))]
      have := ih (c + 1) (fun m h1 h2 => hclear m (by omega) (by omega))
      rw [this]
      congr 1
      omega
  have := hgen (c' - c) c (fun m h1 h2 => h m h1 (by omega))
  rw [this]
  congr 1
  omega

/-! ### Specifications of the scanning phases -/

/-- The flat CPU position `64*idx + q` reads bit `q` of word `idx`. -/
theorem isSet_word_bit (s : CpuSet) (idx q : Nat) (hidx : idx < s.length)
    (hq : q < 64) : IsSet s (64 * idx + q) = (s.getD idx 0).testBit q := by
  rw [isSet_eq_testBit]
  have h1 : (64 * idx + q) / 64 = idx := by omega
  have h2 : (64 * idx + q) % 64 = q := by omega
  have h3 : 64 * idx + q < s.length * 64 := by omega
  rw [h1, h2]
  simp [h3]

/-- `scanNoOv` stops at the first bit `≥ p` matching `target`, counting the
skipped CPUs. -/
theorem scanNoOv_spec (s : CpuSet) (target : Bool) (idx : Nat) :
    ∀ k p cpuno q0, q0 - p = k → p ≤ q0 → q0 < 64 →
      (s.getD idx 0).testBit q0 = target →
      (∀ r, p ≤ r → r < q0 → (s.getD idx 0).testBit r ≠ target) →
      scanNoOv s target (64 - p) cpuno idx p = (cpuno + (q0 - p), q0) := by
  intro k
  induction k with
  | zero =>
    intro p cpuno q0 hk hpq hq ht _
    have hpq0 : p = q0 := by omega
    subst hpq0
    rw [show 64 - p = (64 - p - 1) + 1 by omega, scanNoOv, if_pos ht]
    simp
  | succ k ih =>
    intro p cpuno q0 hk hpq hq ht hmin
    have hplt : p < q0 := by omega
    have hne : (s.getD idx 0).testBit p ≠ target :=
      hmin p (Nat.le_refl _) hplt
    rw [show 64 - p = (64 - (p + 1)) + 1 by omega, scanNoOv, if_neg hne]
    have := ih (p + 1) (cpuno + 1) q0 (by omega) (by omega) hq ht
      (fun r h1 h2 => hmin r (by omega) h2)
    rw [this]
    have harith : cpuno + 1 + (q0 - (p + 1)) = cpuno + (q0 - p) := by omega
    rw [harith]

/-- `scanOv` finds the first bit `≥ p` matching `target` when one exists
in the word. -/
theorem scanOv_found_spec (s : CpuSet) (target : Bool) (idx : Nat) :
    ∀ k p cpuno q0, q0 - p = k → p ≤ q0 → q0 < 64 →
      (s.getD idx 0).testBit q0 = target →
      (∀ r, p ≤ r → r < q0 → (s.getD idx 0).testBit r ≠ target) →
      scanOv s target (64 - p) cpuno idx p =
        Sum.inl (cpuno + (q0 - p), q0) := by
  intro k
  induction k with
  | zero =>
    intro p cpuno q0 hk hpq hq ht _
    have hpq0 : p = q0 := by omega
    subst hpq0
    rw [show 64 - p = (64 - p - 1) + 1 by omega, scanOv, if_pos ht]
    simp
  | succ k ih =>
    intro p cpuno q0 hk hpq hq ht hmin
    have hplt : p < q0 := by omega
    have hne : (s.getD idx 0).testBit p ≠ target :=
      hmin p (Nat.le_refl _) hplt
    rw [show 64 - p = (64 - (p + 1)) + 1 by omega, scanOv, if_neg hne,
      if_neg (show ¬ (p + 1 = 64) by omega)]
    have := ih (p + 1) (cpuno + 1) q0 (by omega) (by omega) hq ht
      (fun r h1 h2 => hmin r (by omega) h2)
    rw [this]
    have harith : cpuno + 1 + (q0 - (p + 1)) = cpuno + (q0 - p) := by omega
    rw [harith]

/-- `scanOv` falls off the word (advancing to the next word with mask `1`)
when no bit `≥ p` matches `target`. -/
theorem scanOv_felloff_spec (s : CpuSet) (target : Bool) (idx : Nat) :
    ∀ k p cpuno, 64 - p = k → p < 64 →
      (∀ r, p ≤ r → r < 64 → (s.getD idx 0).testBit r ≠ target) →
      scanOv s target (64 - p) cpuno idx p =
        Sum.inr (cpuno + (64 - p), idx + 1) := by
  intro k
  induction k with
  | zero => intro p cpuno hk hp _; omega
  | succ k ih =>
    intro p cpuno hk hp hall
    have hne : (s.getD idx 0).testBit p ≠ target :=
      hall p (Nat.le_refl _) hp
    by_cases h63 : p + 1 = 64
    · rw [show 64 - p = 1 by omega, scanOv, if_neg hne, if_pos h63]
    · rw [show 64 - p = (64 - (p + 1)) + 1 by omega, scanOv, if_neg hne,
        if_neg h63]
      have := ih (p + 1) (cpuno + 1) (by omega) (by omega)
        (fun r h1 h2 => hall r (by omega) h2)
      rw [this]
      simp only [Sum.inr.injEq, Prod.mk.injEq]
      exact ⟨by omega, trivial⟩

/-- `skipWords` advances over the maximal run of words equal to `target`,
adding 64 CPUs per word. -/
theorem skipWords_spec (s : CpuSet) (target : Nat) :
    ∀ fuel idx cpuno, s.length - idx ≤ fuel →
      ∃ j, skipWords s target fuel cpuno idx = (cpuno + 64 * (j - idx), j) ∧
        idx ≤ j ∧ j ≤ max idx s.length ∧
        (∀ i, idx ≤ i → i < j → s.getD i 0 = target) ∧
        (j < s.length → s.getD j 0 ≠ target) := by
  intro fuel
  induction fuel with
  | zero =>
    intro idx cpuno hfuel
    refine ⟨idx, by rw [skipWords]; simp, Nat.le_refl _, by omega,
      fun i h1 h2 => by omega, fun h => by omega⟩
  | succ n ih =>
    intro idx cpuno hfuel
    rw [skipWords]
    by_cases hcond : idx < s.length ∧ s.getD idx 0 = target
    · rw [if_pos hcond]
      rcases ih (idx + 1) (cpuno + 64) (by omega) with
        ⟨j, heq, hj1, hj2, hrun, hstop⟩
      refine ⟨j, ?_, by omega, by omega, ?_, hstop⟩
      · rw [heq]
        have harith : cpuno + 64 + 64 * (j - (idx + 1)) =
            cpuno + 64 * (j - idx) := by omega
        rw [harith]
      · intro i h1 h2
        by_cases hik : i = idx
        · subst hik; exact hcond.2
        · exact hrun i (by omega) h2
    · rw [if_neg hcond]
      refine ⟨idx, by simp, Nat.le_refl _, by omega,
        fun i h1 h2 => by omega, fun h => ?_⟩
      intro habs
      exact hcond ⟨h, habs⟩

/-! ### Auxiliary facts for the master theorem -/

theorem getD_mem_of_lt (s : CpuSet) (idx : Nat) (h : idx < s.length) :
    s.getD idx 0 ∈ s := by
  have heq : s.getD idx 0 = s[idx] := by
    simp [List.getD, List.get?_eq_getElem?, List.getElem?_eq_getElem h]
  rw [heq]
  exact List.getElem_mem h

theorem getD_eq_zero_of_ge (s : CpuSet) (idx : Nat) (h : s.length ≤ idx) :
    s.getD idx 0 = 0 := by
  simp [List.getD, List.get?_eq_getElem?,
    List.getElem?_eq_none (show s.length ≤ idx from h)]

theorem word_lt_of_WF (s : CpuSet) (hWF : WFSet s) (idx : Nat) :
    s.getD idx 0 < 2 ^ 64 := by
  by_cases h : idx < s.length
  · exact hWF _ (getD_mem_of_lt s idx h)
  · rw [getD_eq_zero_of_ge s idx (by omega)]
    exact Nat.pos_pow_of_pos _ (by omega)

/-- A well-formed word other than all-ones has a cleared bit below 64. -/
theorem exists_clearBit_lt_64 (w : Nat) (hw : w ≠ 2 ^ 64 - 1)
    (hWF : w < 2 ^ 64) : ∃ i, i < 64 ∧ w.testBit i = false := by
  by_contra h
  push_neg at h
  apply hw
  apply Nat.eq_of_testBit_eq
  intro i
  rw [Nat.testBit_two_pow_sub_one]
  by_cases hi : i < 64
  · simp only [hi, decide_True]
    have := h i hi
    revert this
    cases w.testBit i <;> simp
  · simp only [hi, decide_False]
    exact Nat.testBit_lt_two_pow
      (lt_of_lt_of_le hWF (Nat.pow_le_pow_right (by omega) (by omega)))

/-- Least bit `≥ p` with a given value, from existence. -/
theorem exists_least_bit (w : Nat) (target : Bool) (p : Nat)
    (h : ∃ q, p ≤ q ∧ q < 64 ∧ w.testBit q = target) :
    ∃ q0, p ≤ q0 ∧ q0 < 64 ∧ w.testBit q0 = target ∧
      ∀ r, p ≤ r → r < q0 → w.testBit r ≠ target := by
  refine ⟨Nat.find h, (Nat.find_spec h).1, (Nat.find_spec h).2.1,
    (Nat.find_spec h).2.2, ?_⟩
  intro r h1 h2 habs
  have hr64 : r < 64 := by
    have := (Nat.find_spec h).2.1
    omega
  exact Nat.find_min h h2 ⟨h1, hr64, habs⟩

theorem isSet_false_of_word_zero (s : CpuSet) (m : Nat)
    (h : s.getD (m / 64) 0 = 0) : IsSet s m = false := by
  rw [isSet_eq_testBit, h, Nat.zero_testBit, Bool.and_false]

theorem isSet_true_of_word_ones (s : CpuSet) (m : Nat)
    (hm : m < 64 * s.length) (h : s.getD (m / 64) 0 = 2 ^ 64 - 1) :
    IsSet s m = true := by
  rw [isSet_eq_testBit, h, Nat.testBit_two_pow_sub_one]
  have h1 : m < s.length * 64 := by omega
  have h2 : m % 64 < 64 := Nat.mod_lt _ (by omega)
  simp [h1, h2]

/-! ### The master theorem: the machine computes `runsFrom` -/

/-- Correctness of the all-ones fast-forward and final-range part of the
loop (`listGoTail`). `a` is the open range's first CPU; positions
`a+1 … c2-1` are known members and `c2` sits on the word boundary `64*i2`.
The recursion hypothesis `ihg` is the master statement at the smaller
fuel. -/
theorem listGoTail_spec (s : CpuSet) (hWF : WFSet s) (fuel : Nat)
    (ihg : ∀ acc cpuno idx p, cpuno = 64 * idx + p → p < 64 →
      (p ≠ 0 → idx < s.length) → (runsFrom s cpuno).length < fuel →
      listGo s fuel acc cpuno idx p = acc ++ runsFrom s cpuno)
    (acc : RangeList) (a c2 i2 : Nat)
    (hc2 : c2 = 64 * i2) (hi2 : i2 ≤ s.length) (haN : a < 64 * s.length)
    (hac2 : a + 1 ≤ c2)
    (hrun : ∀ m, a + 1 ≤ m → m < c2 → IsSet s m = true)
    (hfuel : (runsFrom s (nextClearFrom s (a + 1))).length < fuel) :
    listGoTail s fuel acc a c2 i2 =
      acc ++ ((a, nextClearFrom s (a + 1) - 1) ::
        runsFrom s (nextClearFrom s (a + 1))) := by
  obtain ⟨j2, hFeq, hj2a, hj2b, hFrun, hFstop⟩ :=
    skipWords_spec s (2 ^ 64 - 1) (s.length - i2) i2 c2 (Nat.le_refl _)
  have hmaxj : max i2 s.length = s.length := max_eq_right hi2
  have hj2len : j2 ≤ s.length := by omega
  have hsetAll : ∀ m, a + 1 ≤ m → m < 64 * j2 → IsSet s m = true := by
    intro m hm1 hm2
    by_cases hmc : m < c2
    · exact hrun m hm1 hmc
    · apply isSet_true_of_word_ones s m (by omega)
      apply hFrun (m / 64) (by omega) (by omega)
  simp only [listGoTail]
  rw [hFeq]
  simp only []
  by_cases hexit : s.length ≤ j2
  · rw [if_pos hexit]
    have hj2eq : j2 = s.length := by omega
    have hb : nextClearFrom s (a + 1) = 64 * s.length := by
      apply nextClearFrom_eq s (a + 1) _ (by omega)
        (isSet_out_of_range s _ (by omega))
        (fun m h1 h2 => hsetAll m h1 (by omega)) (Nat.le_refl _)
    rw [hb]
    have hrw : c2 + 64 * (j2 - i2) = 64 * s.length := by omega
    rw [hrw]
    rw [runsFrom_of_none s (64 * s.length)
      (nextSetFrom_eq_none s _ (fun m hm => isSet_out_of_range s m (by omega)))]
  · rw [if_neg hexit]
    have hj2lt : j2 < s.length := by omega
    have hwne : s.getD j2 0 ≠ 2 ^ 64 - 1 := hFstop hj2lt
    obtain ⟨i0, hi064, hi0bit⟩ :=
      exists_clearBit_lt_64 _ hwne (word_lt_of_WF s hWF j2)
    obtain ⟨q2, hq2p, hq264, hq2bit, hq2min⟩ :=
      exists_least_bit (s.getD j2 0) false 0 ⟨i0, by omega, hi064, hi0bit⟩
    have hscan := scanNoOv_spec s false j2 q2 0 (c2 + 64 * (j2 - i2)) q2
      (by omega) (by omega) hq264 hq2bit (fun r h1 h2 => hq2min r h1 h2)
    simp only [Nat.sub_zero] at hscan
    rw [hscan]
    simp only []
    have hcH : c2 + 64 * (j2 - i2) + q2 = 64 * j2 + q2 := by omega
    rw [hcH]
    have hb : nextClearFrom s (a + 1) = 64 * j2 + q2 := by
      apply nextClearFrom_eq s (a + 1) _ (by omega) ?_ ?_ (by omega)
      · rw [isSet_word_bit s j2 q2 hj2lt hq264]
        exact hq2bit
      · intro m h1 h2
        by_cases hmf : m < 64 * j2
        · exact hsetAll m h1 hmf
        · have hr : m - 64 * j2 < 64 := by omega
          have hm : m = 64 * j2 + (m - 64 * j2) := by omega
          rw [hm, isSet_word_bit s j2 _ hj2lt hr]
          have := hq2min (m - 64 * j2) (by omega) (by omega)
          revert this
          cases (s.getD j2 0).testBit (m - 64 * j2) <;> simp
    have hlen' : (runsFrom s (64 * j2 + q2)).length < fuel := by
      rw [← hb]
      exact hfuel
    rw [ihg (acc ++ [(a, 64 * j2 + q2 - 1)]) (64 * j2 + q2) j2 q2 rfl hq264
      (fun _ => hj2lt) hlen']
    rw [hb, List.append_assoc]
    rfl

/-- Correctness of the loop body from the zero-word fast-forward onward
(`listGoCore`), for an A-stable state: either `p = 0`, or the mask sits on
a set bit of word `iA`. -/
theorem listGoCore_spec (s : CpuSet) (hWF : WFSet s) (fuel : Nat)
    (ihg : ∀ acc cpuno idx p, cpuno = 64 * idx + p → p < 64 →
      (p ≠ 0 → idx < s.length) → (runsFrom s cpuno).length < fuel →
      listGo s fuel acc cpuno idx p = acc ++ runsFrom s cpuno)
    (acc : RangeList) (cA iA pA : Nat)
    (hpos : cA = 64 * iA + pA) (hp64 : pA < 64)
    (hbit : pA ≠ 0 → iA < s.length ∧ (s.getD iA 0).testBit pA = true)
    (hlen : (runsFrom s cA).length < fuel + 1) :
    listGoCore s fuel acc cA iA pA = acc ++ runsFrom s cA := by
  obtain ⟨j, hBeq, hj1, hj2, hBrun, hBstop⟩ :=
    skipWords_spec s 0 (s.length - iA) iA cA (Nat.le_refl _)
  have hjiA : pA ≠ 0 → j = iA := by
    intro hpA0
    obtain ⟨hiA, hbitA⟩ := hbit hpA0
    by_contra hne
    have h0 : s.getD iA 0 = 0 := hBrun iA (Nat.le_refl _) (by omega)
    rw [h0, Nat.zero_testBit] at hbitA
    cases hbitA
  have hBruns : runsFrom s cA = runsFrom s (cA + 64 * (j - iA)) := by
    by_cases hpA0 : pA = 0
    · apply runsFrom_skip_many s cA _ (by omega)
      intro m h1 h2
      apply isSet_false_of_word_zero
      apply hBrun (m / 64) (by omega) (by omega)
    · rw [hjiA hpA0, Nat.sub_self, Nat.mul_zero, Nat.add_zero]
  simp only [listGoCore]
  rw [hBeq]
  simp only []
  by_cases hexit : s.length ≤ j
  · rw [if_pos hexit]
    have hempty : runsFrom s (cA + 64 * (j - iA)) = [] := by
      apply runsFrom_of_none
      apply nextSetFrom_eq_none
      intro m hm
      apply isSet_out_of_range
      by_cases hpA0 : pA = 0
      · omega
      · have := (hbit hpA0).1
        have := hjiA hpA0
        omega
    rw [hBruns, hempty, List.append_nil]
  · rw [if_neg hexit]
    have hjlen : j < s.length := by omega
    have hexq : ∃ q, pA ≤ q ∧ q < 64 ∧ (s.getD j 0).testBit q = true := by
      by_cases hpA0 : pA = 0
      · have hwne : s.getD j 0 ≠ 0 := hBstop hjlen
        obtain ⟨i0, hi064, hi0bit⟩ :=
          exists_testBit_lt_64 _ hwne (word_lt_of_WF s hWF j)
        exact ⟨i0, by omega, hi064, hi0bit⟩
      · exact ⟨pA, Nat.le_refl _, hp64, by rw [hjiA hpA0]; exact (hbit hpA0).2⟩
    obtain ⟨q0, hq0p, hq064, hq0bit, hq0min⟩ := exists_least_bit _ true pA hexq
    have hscanC := scanNoOv_spec s true j (q0 - pA) pA (cA + 64 * (j - iA)) q0
      rfl hq0p hq064 hq0bit hq0min
    rw [hscanC]
    simp only []
    have haterm : cA + 64 * (j - iA) + (q0 - pA) = 64 * j + q0 := by
      by_cases hpA0 : pA = 0
      · omega
      · have := hjiA hpA0
        omega
    rw [haterm]
    have hcB : cA + 64 * (j - iA) = 64 * j + pA := by
      by_cases hpA0 : pA = 0
      · omega
      · have := hjiA hpA0
        omega
    have hnset : nextSetFrom s (cA + 64 * (j - iA)) = some (64 * j + q0) := by
      apply nextSetFrom_eq_some s _ _ (by omega)
      · rw [isSet_word_bit s j q0 hjlen hq064]
        exact hq0bit
      · intro m h1 h2
        have hr : m - 64 * j < 64 := by omega
        have hm : m = 64 * j + (m - 64 * j) := by omega
        rw [hm, isSet_word_bit s j _ hjlen hr]
        have := hq0min (m - 64 * j) (by omega) (by omega)
        revert this
        cases (s.getD j 0).testBit (m - 64 * j) <;> simp
    have hconsRuns : runsFrom s cA =
        (64 * j + q0, nextClearFrom s (64 * j + q0 + 1) - 1) ::
          runsFrom s (nextClearFrom s (64 * j + q0 + 1)) := by
      rw [hBruns]
      exact runsFrom_of_some s _ _ hnset
    have hb1N : 64 * j + q0 + 1 ≤ 64 * s.length := by omega
    obtain ⟨hbrun, hbclear, hbN⟩ := nextClearFrom_sound s (64 * j + q0 + 1) hb1N
    have hab : 64 * j + q0 + 1 ≤ nextClearFrom s (64 * j + q0 + 1) :=
      nextClear_ge s _ _
    have hlenb : (runsFrom s (nextClearFrom s (64 * j + q0 + 1))).length < fuel := by
      have h := hlen
      rw [hconsRuns] at h
      simp only [List.length_cons] at h
      omega
    by_cases hq63 : q0 + 1 = 64
    · rw [if_pos hq63]
      simp only []
      rw [if_neg (show ¬((0 : Nat) ≠ 0) by omega)]
      simp only []
      rw [listGoTail_spec s hWF fuel ihg acc (64 * j + q0) (64 * j + q0 + 1)
        (j + 1) (by omega) (by omega) (by omega) (by omega)
        (fun m h1 h2 => absurd (Nat.lt_of_le_of_lt h1 h2) (Nat.lt_irrefl _))
        hlenb]
      rw [hconsRuns]
    · rw [if_neg hq63]
      simp only []
      rw [if_pos (show q0 + 1 ≠ 0 by omega)]
      by_cases hexE : ∃ q, q0 + 1 ≤ q ∧ q < 64 ∧ (s.getD j 0).testBit q = false
      · obtain ⟨q1, hq1p, hq164, hq1bit, hq1min⟩ :=
          exists_least_bit _ false (q0 + 1) hexE
        rw [scanOv_found_spec s false j (q1 - (q0 + 1)) (q0 + 1)
          (64 * j + q0 + 1) q1 rfl hq1p hq164 hq1bit hq1min]
        simp only []
        have hcE : 64 * j + q0 + 1 + (q1 - (q0 + 1)) = 64 * j + q1 := by omega
        rw [hcE]
        have hbE : nextClearFrom s (64 * j + q0 + 1) = 64 * j + q1 := by
          apply nextClearFrom_eq s _ _ (by omega) ?_ ?_ (by omega)
          · rw [isSet_word_bit s j q1 hjlen hq164]
            exact hq1bit
          · intro m h1 h2
            have hr : m - 64 * j < 64 := by omega
            have hm : m = 64 * j + (m - 64 * j) := by omega
            rw [hm, isSet_word_bit s j _ hjlen hr]
            have := hq1min (m - 64 * j) (by omega) (by omega)
            revert this
            cases (s.getD j 0).testBit (m - 64 * j) <;> simp
        rw [ihg (acc ++ [(64 * j + q0, 64 * j + q1 - 1)]) (64 * j + q1) j q1
          rfl hq164 (fun _ => hjlen) (by rw [← hbE]; exact hlenb)]
        rw [hconsRuns, hbE, List.append_assoc]
        rfl
      · push_neg at hexE
        have hallE : ∀ r, q0 + 1 ≤ r → r < 64 →
            (s.getD j 0).testBit r ≠ false := fun r h1 h2 => hexE r h1 h2
        rw [scanOv_felloff_spec s false j (64 - (q0 + 1)) (q0 + 1)
          (64 * j + q0 + 1) rfl (by omega) hallE]
        simp only []
        have hc2 : 64 * j + q0 + 1 + (64 - (q0 + 1)) = 64 * (j + 1) := by omega
        rw [hc2]
        rw [listGoTail_spec s hWF fuel ihg acc (64 * j + q0) (64 * (j + 1))
          (j + 1) rfl (by omega) (by omega) (by omega) ?_ hlenb]
        · rw [hconsRuns]
        · intro m h1 h2
          have hr : m - 64 * j < 64 := by omega
          have hm : m = 64 * j + (m - 64 * j) := by omega
          rw [hm, isSet_word_bit s j _ hjlen hr]
          have := hallE (m - 64 * j) (by omega) (by omega)
          revert this
          cases (s.getD j 0).testBit (m - 64 * j) <;> simp

/-- **Master theorem.** From any loop-top state satisfying the machine
invariants (`cpuno = 64*idx + p`, `p < 64`, a live word under a non-unit
mask) and with fuel exceeding the number of remaining runs, `listGo`
appends exactly the maximal runs of set bits from position `cpuno` on. -/
theorem listGo_eq_runsFrom (s : CpuSet) (hWF : WFSet s) :
    ∀ fuel acc cpuno idx p,
      cpuno = 64 * idx + p → p < 64 → (p ≠ 0 → idx < s.length) →
      (runsFrom s cpuno).length < fuel →
      listGo s fuel acc cpuno idx p = acc ++ runsFrom s cpuno := by
  intro fuel
  induction fuel with
  | zero =>
    intro acc cpuno idx p _ _ _ hlen
    omega
  | succ fuel ih =>
    intro acc cpuno idx p hpos hp64 hpidx hlen
    rw [listGo_succ]
    by_cases hpz : p = 0
    · subst hpz
      rw [if_neg (show ¬((0 : Nat) ≠ 0) by omega)]
      simp only []
      exact listGoCore_spec s hWF fuel ih acc cpuno idx 0 hpos hp64
        (fun h => absurd rfl h) hlen
    · have hidx := hpidx hpz
      by_cases hex : ∃ q, p ≤ q ∧ q < 64 ∧ (s.getD idx 0).testBit q = true
      · obtain ⟨q0, hq0p, hq064, hq0bit, hq0min⟩ :=
          exists_least_bit _ true p hex
        rw [if_pos hpz, scanOv_found_spec s true idx (q0 - p) p cpuno q0 rfl
          hq0p hq064 hq0bit hq0min]
        simp only []
        have hskip : runsFrom s cpuno = runsFrom s (cpuno + (q0 - p)) := by
          have : cpuno + (q0 - p) = 64 * idx + q0 := by omega
          rw [this, hpos]
          apply runsFrom_skip_many s _ _ (by omega)
          intro m h1 h2
          have hr : m - 64 * idx < 64 := by omega
          have hm : m = 64 * idx + (m - 64 * idx) := by omega
          rw [hm, isSet_word_bit s idx _ hidx hr]
          have := hq0min (m - 64 * idx) (by omega) (by omega)
          revert this
          cases (s.getD idx 0).testBit (m - 64 * idx) <;> simp
        rw [hskip]
        exact listGoCore_spec s hWF fuel ih acc _ idx q0 (by omega) hq064
          (fun _ => ⟨hidx, hq0bit⟩) (by rw [← hskip]; exact hlen)
      · push_neg at hex
        have hall : ∀ r, p ≤ r → r < 64 →
            (s.getD idx 0).testBit r ≠ true := fun r h1 h2 => by
          have := hex r h1 h2
          revert this
          cases (s.getD idx 0).testBit r <;> simp
        rw [if_pos hpz, scanOv_felloff_spec s true idx (64 - p) p cpuno rfl
          hp64 hall]
        simp only []
        have hskip : runsFrom s cpuno = runsFrom s (cpuno + (64 - p)) := by
          rw [hpos]
          have : 64 * idx + p + (64 - p) = 64 * idx + 64 := by omega
          rw [this]
          apply runsFrom_skip_many s _ _ (by omega)
          intro m h1 h2
          have hr : m - 64 * idx < 64 := by omega
          have hm : m = 64 * idx + (m - 64 * idx) := by omega
          rw [hm, isSet_word_bit s idx _ hidx hr]
          have := hall (m - 64 * idx) (by omega) (by omega)
          revert this
          cases (s.getD idx 0).testBit (m - 64 * idx) <;> simp
        rw [hskip]
        exact listGoCore_spec s hWF fuel ih acc _ (idx + 1) 0 (by omega)
          (by omega) (fun h => absurd rfl h) (by rw [← hskip]; exact hlen)

/-- `Set.List` computes the maximal runs of set bits. -/
theorem setList_eq_runs (s : CpuSet) (hWF : WFSet s) :
    SetList s = runsFrom s 0 := by
  rw [SetList]
  have hfuel : (runsFrom s 0).length < 64 * s.length + 2 := by
    have := runsFrom_length s 0
    omega
  have := listGo_eq_runsFrom s hWF (64 * s.length + 2) [] 0 0 0 rfl
    (by omega) (fun h => absurd rfl h) hfuel
  simpa using this

/-- **C4.** `Set.List` produces a canonical minimal range list — valid
inclusive ranges, strictly increasing, pairwise disjoint and non-adjacent —
and agrees with the documented examples: `{0xaa0}` yields
`[[5,5],[7,7],[9,9],[11,11]]` and `{^0, 1}` yields `[[0,64]]`. -/
theorem setList_canonical :
    (∀ s : CpuSet, WFSet s → CanonicalMin (SetList s)) ∧
    SetList [0xaa0] = [(5, 5), (7, 7), (9, 9), (11, 11)] ∧
    SetList [2 ^ 64 - 1, 1] = [(0, 64)] := by
  refine ⟨fun s hWF => ?_, by decide, by decide⟩
  rw [CanonicalMin, setList_eq_runs s hWF]
  exact runsFrom_canonicalMin s 0

/-- **C4 witness**: the canonical-minimal property applied at `{0xaa0}`. -/
theorem setList_canonical_witness : CanonicalMin (SetList [0xaa0]) :=
  setList_canonical.1 [0xaa0] (by decide)

/-! ## `List.Set`: range list → bitmask, and the round trip -/

/-- Go `List.Set()` (file `set.go`): an empty list yields `Set{}`;
otherwise the ranges are added last range first
(`r := l[len(l)-i-1]; s = s.AddRange(r[0], r[1])`). A panic inside
`AddRange` (an inverted range) propagates as `none`. -/
def ListToSet (l : RangeList) : Option CpuSet :=
  if l.length = 0 then some []
  else
    (List.range l.length).foldlM
      (fun st i =>
        let r := l.getD (l.length - i - 1) (0, 0)
        AddRange st r.1 r.2)
      ([] : CpuSet)

theorem foldlM_addRange_isSet :
    ∀ (rs : RangeList), (∀ r ∈ rs, r.1 ≤ r.2) →
    ∀ s0 : CpuSet, ∃ t,
      rs.foldlM (fun st (r : Nat × Nat) => AddRange st r.1 r.2) s0 = some t ∧
      ∀ c, IsSet t c = (IsSet s0 c || decide (covered rs c)) := by
  intro rs
  induction rs with
  | nil =>
    intro _ s0
    refine ⟨s0, rfl, fun c => ?_⟩
    have : ¬ covered ([] : RangeList) c := covered_nil c
    simp [this]
  | cons r rest ih =>
    intro hval s0
    obtain ⟨t1, ht1, hmem1⟩ :=
      addRange_isSet s0 r.1 r.2 (hval r (by simp))
    obtain ⟨t, ht, hmem⟩ := ih (fun x hx => hval x (by simp [hx])) t1
    refine ⟨t, ?_, fun c => ?_⟩
    · rw [List.foldlM_cons, ht1]
      simpa using ht
    · rw [hmem c, hmem1 c]
      have hcov : decide (covered (r :: rest) c) =
          ((decide (r.1 ≤ c) && decide (c ≤ r.2)) || decide (covered rest c)) := by
        by_cases h1 : r.1 ≤ c ∧ c ≤ r.2
        · simp [covered_cons, h1.1, h1.2]
        · by_cases h2 : covered rest c
          · simp [covered_cons, h2]
          · have : ¬ covered (r :: rest) c := by
              rw [covered_cons]
              rintro (h | h)
              · exact h1 h
              · exact h2 h
            rcases Decidable.not_and_iff_or_not.1 h1 with h | h <;>
              simp [this, h2, h]
      rw [hcov]
      cases IsSet s0 c <;>
        cases hb1 : (decide (r.1 ≤ c) && decide (c ≤ r.2)) <;>
          cases hb2 : decide (covered rest c) <;> simp

/-- The index-reversal loop of `List.Set` processes exactly the reversed
list. -/
theorem range_getD_map_eq_reverse (l : RangeList) :
    (List.range l.length).map (fun i => l.getD (l.length - i - 1) (0, 0)) =
      l.reverse := by
  apply List.ext_getElem
  · simp
  · intro k hk1 hk2
    simp only [List.getElem_map, List.getElem_range, List.getElem_reverse]
    have hlt : l.length - k - 1 < l.length := by
      simp at hk1
      omega
    rw [List.getD, List.get?_eq_getElem?, List.getElem?_eq_getElem hlt]
    simp
    congr 1
    simp at hk1
    omega

theorem listToSet_eq_reverse_fold (l : RangeList) (hne : l.length ≠ 0) :
    ListToSet l =
      l.reverse.foldlM (fun st (r : Nat × Nat) => AddRange st r.1 r.2)
        ([] : CpuSet) := by
  rw [ListToSet, if_neg hne, ← range_getD_map_eq_reverse l, List.foldlM_map]

/-- **C1.** Round trip: converting a (well-formed) bitmask to a range list
and back reproduces the original membership exactly. -/
theorem list_set_roundtrip (s : CpuSet) (hWF : WFSet s) :
    ∃ t, ListToSet (SetList s) = some t ∧ ∀ c, IsSet t c = IsSet s c := by
  rw [setList_eq_runs s hWF]
  have hcov : ∀ c, decide (covered (runsFrom s 0) c) = IsSet s c := by
    intro c
    by_cases h : covered (runsFrom s 0) c
    · have := (runsFrom_covered s 0 c).1 h
      simp [h, this.2]
    · have : IsSet s c = false := by
        by_contra hne
        have : IsSet s c = true := by
          revert hne
          cases IsSet s c <;> simp
        exact h ((runsFrom_covered s 0 c).2 ⟨Nat.zero_le _, this⟩)
      simp [h, this]
  by_cases hnil : (runsFrom s 0).length = 0
  · rw [ListToSet, if_pos hnil]
    refine ⟨[], rfl, fun c => ?_⟩
    rw [isSet_out_of_range [] c (by simp)]
    have h0 : ¬ covered (runsFrom s 0) c := by
      rcases List.length_eq_zero.1 hnil with h
      rw [h]
      exact covered_nil c
    have := hcov c
    rw [← this]
    simp [h0]
  · rw [listToSet_eq_reverse_fold _ hnil]
    have hval : ∀ r ∈ (runsFrom s 0).reverse, r.1 ≤ r.2 := by
      intro r hr
      exact (runsFrom_ranges s 0 r (List.mem_reverse.1 hr)).2.2
    obtain ⟨t, ht, hmem⟩ := foldlM_addRange_isSet _ hval []
    refine ⟨t, ht, fun c => ?_⟩
    rw [hmem c]
    have hrev : decide (covered (runsFrom s 0).reverse c) =
        decide (covered (runsFrom s 0) c) := by
      have : covered (runsFrom s 0).reverse c ↔ covered (runsFrom s 0) c := by
        constructor <;>
          · rintro ⟨r, hr, h1, h2⟩
            exact ⟨r, by simp at hr ⊢; exact hr, h1, h2⟩
      by_cases h : covered (runsFrom s 0) c <;> simp [this, h]
    rw [hrev, hcov c]
    rw [isSet_out_of_range [] c (by simp)]
    simp

/-- **C1 witness**: the round trip applied at the one-word set `{0xaa0}`. -/
theorem list_set_roundtrip_witness :
    ∃ t, ListToSet (SetList [0xaa0]) = some t ∧
      ∀ c, IsSet t c = IsSet [0xaa0] c :=
  list_set_roundtrip [0xaa0] (by decide)

/-! ## List.IsOverlapping and List.Overlap -/

/-- Inner loop of Go `List.IsOverlapping` (file `set.go`, lines 467–487),
for one fixed range `r1` of the receiver list. The advancing cursor
`r2idx` into `another` is carried as the still-unprocessed suffix
`another[r2idx:]`: `Sum.inl v` models `return v` from the whole method
(exhaustion returns `false`, an overlapping pair returns `true`), and
`Sum.inr rest` models `break` once the current second range lies beyond
`r1`, keeping the suffix at the current cursor for the next outer
iteration. -/
def isOvInner (r1 : Nat × Nat) : RangeList → Bool ⊕ RangeList
  | [] => Sum.inl false
  | r2 :: rest =>
    if r1.2 ≥ r2.1 ∧ r1.1 ≤ r2.2 then Sum.inl true
    else if r2.1 > r1.2 then Sum.inr (r2 :: rest)
    else isOvInner r1 rest

/-- Go `List.IsOverlapping` (file `set.go`, lines 462–490): the outer
`for _, r1 := range l` loop; falling off the loop returns `false`. -/
def IsOverlapping : RangeList → RangeList → Bool
  | [], _ => false
  | r1 :: rest, another =>
    match isOvInner r1 another with
    | Sum.inl b => b
    | Sum.inr rem => IsOverlapping rest rem

/-- Inner loop of Go `List.Overlap` (file `set.go`, lines 498–519) for one
fixed receiver range `r1`; the first list argument is the `overlaps`
accumulator, the second the still-unprocessed suffix of `another`. On an
overlapping pair the clipped range `[max(r1[0], r2[0]), min(r1[1], r2[1])]`
is appended and the loop carries on. `Sum.inl acc` models
`return overlaps`, `Sum.inr (acc, rest)` models `break` once the current
second range ends beyond `r1`. -/
def overlapInner (r1 : Nat × Nat) : RangeList → RangeList → RangeList ⊕ (RangeList × RangeList)
  | acc, [] => Sum.inl acc
  | acc, r2 :: rest =>
    let acc2 := if r1.2 ≥ r2.1 ∧ r1.1 ≤ r2.2
      then acc ++ [(max r1.1 r2.1, min r1.2 r2.2)] else acc
    if r2.2 > r1.2 then Sum.inr (acc2, r2 :: rest)
    else overlapInner r1 acc2 rest

/-- Outer loop of Go `List.Overlap` (file `set.go`, lines 494–522). -/
def overlapGo : RangeList → RangeList → RangeList → RangeList
  | acc, [], _ => acc
  | acc, r1 :: rest, another =>
    match overlapInner r1 acc another with
    | Sum.inl acc2 => acc2
    | Sum.inr (acc2, rem) => overlapGo acc2 rest rem

/-- Go `List.Overlap`: start from `overlaps := List{}` and run the nested
loops. -/
def Overlap (l another : RangeList) : RangeList := overlapGo [] l another

/-- Reference intersection of two range lists, written to be manifestly
symmetric: emit the clipped intersection of the two head ranges when they
overlap, then drop whichever head range ends first (both on a tie). -/
def interRef : RangeList → RangeList → RangeList
  | [], _ => []
  | _ :: _, [] => []
  | r1 :: as, r2 :: bs =>
    (if r1.2 ≥ r2.1 ∧ r1.1 ≤ r2.2 then [(max r1.1 r2.1, min r1.2 r2.2)] else []) ++
      (if r1.2 < r2.2 then interRef as (r2 :: bs)
       else if r2.2 < r1.2 then interRef (r1 :: as) bs
       else interRef as bs)
termination_by a b => a.length + b.length
decreasing_by all_goals (simp; try omega)

theorem interRef_nil_left (b : RangeList) : interRef [] b = [] := by
  rw [interRef]

theorem interRef_nil_right (a : RangeList) : interRef a [] = [] := by
  match a with
  | [] => rw [interRef]
  | x :: xs => rw [interRef]

theorem interRef_cons (r1 r2 : Nat × Nat) (as bs : RangeList) :
    interRef (r1 :: as) (r2 :: bs) =
      (if r1.2 ≥ r2.1 ∧ r1.1 ≤ r2.2
        then [(max r1.1 r2.1, min r1.2 r2.2)] else []) ++
        (if r1.2 < r2.2 then interRef as (r2 :: bs)
         else if r2.2 < r1.2 then interRef (r1 :: as) bs
         else interRef as bs) := by
  rw [interRef]

theorem interRef_comm_aux : ∀ n (a b : RangeList), a.length + b.length ≤ n →
    interRef a b = interRef b a := by
  intro n
  induction n with
  | zero =>
    intro a b hlen
    have ha : a = [] := List.length_eq_zero.1 (by omega)
    have hb : b = [] := List.length_eq_zero.1 (by omega)
    subst ha hb
    rfl
  | succ n ih =>
    intro a b hlen
    match a, b with
    | [], b => rw [interRef_nil_left, interRef_nil_right]
    | r1 :: as, [] => rw [interRef_nil_left, interRef_nil_right]
    | r1 :: as, r2 :: bs =>
      rw [interRef_cons, interRef_cons]
      congr 1
      · by_cases h : r1.2 ≥ r2.1 ∧ r1.1 ≤ r2.2
        · rw [if_pos h, if_pos ⟨h.2, h.1⟩, Nat.max_comm, Nat.min_comm]
        · rw [if_neg h, if_neg (fun hc => h ⟨hc.2, hc.1⟩)]
      · have h1 : as.length + (r2 :: bs).length ≤ n := by
          simp only [List.length_cons] at hlen ⊢
          omega
        have h2 : (r1 :: as).length + bs.length ≤ n := by
          simp only [List.length_cons] at hlen ⊢
          omega
        have h3 : as.length + bs.length ≤ n := by
          simp only [List.length_cons] at hlen
          omega
        rcases lt_trichotomy r1.2 r2.2 with hlt | heq | hgt
        · rw [if_pos hlt, if_neg (by omega), if_pos hlt]
          exact ih as (r2 :: bs) h1
        · rw [if_neg (by omega), if_neg (by omega), if_neg (by omega),
            if_neg (by omega)]
          exact ih as bs h3
        · rw [if_neg (by omega), if_pos hgt, if_pos hgt]
          exact ih (r1 :: as) bs h2

theorem append_ite (acc : RangeList) (c : Prop) [Decidable c] (x : Nat × Nat) :
    (if c then acc ++ [x] else acc) = acc ++ (if c then [x] else []) := by
  split <;> simp

theorem overlapInner_cons (r1 r2 : Nat × Nat) (acc bs : RangeList) :
    overlapInner r1 acc (r2 :: bs) =
      if r2.2 > r1.2 then
        Sum.inr ((if r1.2 ≥ r2.1 ∧ r1.1 ≤ r2.2
          then acc ++ [(max r1.1 r2.1, min r1.2 r2.2)] else acc), r2 :: bs)
      else overlapInner r1
        (if r1.2 ≥ r2.1 ∧ r1.1 ≤ r2.2
          then acc ++ [(max r1.1 r2.1, min r1.2 r2.2)] else acc) bs := rfl

theorem overlapGo_cons (acc : RangeList) (r1 : Nat × Nat) (rest b : RangeList) :
    overlapGo acc (r1 :: rest) b =
      match overlapInner r1 acc b with
      | Sum.inl acc2 => acc2
      | Sum.inr (acc2, rem) => overlapGo acc2 rest rem := rfl

theorem overlapGo_step_break (r1 r2 : Nat × Nat) (acc as bs : RangeList)
    (h : r1.2 < r2.2) :
    overlapGo acc (r1 :: as) (r2 :: bs) =
      overlapGo (acc ++ (if r1.2 ≥ r2.1 ∧ r1.1 ≤ r2.2
        then [(max r1.1 r2.1, min r1.2 r2.2)] else [])) as (r2 :: bs) := by
  rw [overlapGo_cons, overlapInner_cons, if_pos h, append_ite]

theorem overlapGo_step_inner (r1 r2 : Nat × Nat) (acc as bs : RangeList)
    (h : ¬ r1.2 < r2.2) :
    overlapGo acc (r1 :: as) (r2 :: bs) =
      overlapGo (acc ++ (if r1.2 ≥ r2.1 ∧ r1.1 ≤ r2.2
        then [(max r1.1 r2.1, min r1.2 r2.2)] else [])) (r1 :: as) bs := by
  conv_rhs => rw [overlapGo_cons]
  rw [overlapGo_cons, overlapInner_cons, if_neg h, append_ite]

theorem overlapGo_eq_interRef : ∀ n (a b acc : RangeList),
    a.length + b.length ≤ n → Canonical a → Canonical b →
    overlapGo acc a b = acc ++ interRef a b := by
  intro n
  induction n with
  | zero =>
    intro a b acc hlen _ _
    have ha : a = [] := List.length_eq_zero.1 (by omega)
    have hb : b = [] := List.length_eq_zero.1 (by omega)
    subst ha hb
    simp [overlapGo, interRef_nil_left]
  | succ n ih =>
    intro a b acc hlen ha hb
    match a, b with
    | [], b => simp [overlapGo, interRef_nil_left]
    | r1 :: as, [] =>
      rw [overlapGo_cons]
      simp [overlapInner, interRef_nil_right]
    | r1 :: as, r2 :: bs =>
      have hr1 : r1.1 ≤ r1.2 := canonical_ranges_le ha r1 (by simp)
      have hr2 : r2.1 ≤ r2.2 := canonical_ranges_le hb r2 (by simp)
      have has : Canonical as := canonical_cons ha
      have hbs : Canonical bs := canonical_cons hb
      rw [interRef_cons]
      rcases lt_trichotomy r1.2 r2.2 with hlt | heq | hgt
      · rw [overlapGo_step_break r1 r2 acc as bs hlt, if_pos hlt,
          ih as (r2 :: bs) _ (by simp only [List.length_cons] at hlen ⊢; omega)
            has hb]
        rw [List.append_assoc]
      · rw [overlapGo_step_inner r1 r2 acc as bs (show ¬ r1.2 < r2.2 by omega)]
        rw [if_neg (show ¬ r1.2 < r2.2 by omega),
          if_neg (show ¬ r2.2 < r1.2 by omega)]
        match bs, hbs with
        | [], _ =>
          rw [overlapGo_cons]
          simp [overlapInner, interRef_nil_right]
        | r2b :: bs2, hbs =>
          have hlt2 : r2.2 < r2b.1 := by
            have := (chainOkB_cons hb).2.2 r2b (by simp)
            omega
          have hr2b : r2b.1 ≤ r2b.2 := canonical_ranges_le hbs r2b (by simp)
          rw [overlapGo_step_break r1 r2b _ as bs2 (show r1.2 < r2b.2 by omega),
            if_neg (show ¬ (r1.2 ≥ r2b.1 ∧ r1.1 ≤ r2b.2) by omega),
            List.append_nil]
          rw [ih as (r2b :: bs2) _
            (by simp only [List.length_cons] at hlen ⊢; omega) has hbs]
          rw [List.append_assoc]
      · rw [overlapGo_step_inner r1 r2 acc as bs (show ¬ r1.2 < r2.2 by omega)]
        rw [if_neg (show ¬ r1.2 < r2.2 by omega), if_pos hgt]
        rw [ih (r1 :: as) bs _
          (by simp only [List.length_cons] at hlen ⊢; omega) ha hbs]
        rw [List.append_assoc]

theorem isOvInner_cons (r1 r2 : Nat × Nat) (rest : RangeList) :
    isOvInner r1 (r2 :: rest) =
      if r1.2 ≥ r2.1 ∧ r1.1 ≤ r2.2 then Sum.inl true
      else if r2.1 > r1.2 then Sum.inr (r2 :: rest)
      else isOvInner r1 rest := rfl

theorem isOverlapping_cons (r1 : Nat × Nat) (rest b : RangeList) :
    IsOverlapping (r1 :: rest) b =
      match isOvInner r1 b with
      | Sum.inl v => v
      | Sum.inr rem => IsOverlapping rest rem := rfl

theorem isOverlapping_eq_interRef : ∀ n (a b : RangeList),
    a.length + b.length ≤ n → Canonical a → Canonical b →
    (IsOverlapping a b = true ↔ interRef a b ≠ []) := by
  intro n
  induction n with
  | zero =>
    intro a b hlen _ _
    have ha : a = [] := List.length_eq_zero.1 (by omega)
    have hb : b = [] := List.length_eq_zero.1 (by omega)
    subst ha hb
    simp [IsOverlapping, interRef_nil_left]
  | succ n ih =>
    intro a b hlen ha hb
    match a, b with
    | [], b => simp [IsOverlapping, interRef_nil_left]
    | r1 :: as, [] =>
      rw [isOverlapping_cons]
      simp [isOvInner, interRef_nil_right]
    | r1 :: as, r2 :: bs =>
      have hr1 : r1.1 ≤ r1.2 := canonical_ranges_le ha r1 (by simp)
      have hr2 : r2.1 ≤ r2.2 := canonical_ranges_le hb r2 (by simp)
      have has : Canonical as := canonical_cons ha
      have hbs : Canonical bs := canonical_cons hb
      rw [interRef_cons]
      by_cases hcond : r1.2 ≥ r2.1 ∧ r1.1 ≤ r2.2
      · rw [isOverlapping_cons, isOvInner_cons, if_pos hcond]
        simp [hcond]
      · have htri : r1.2 < r2.1 ∨ r2.2 < r1.1 := by
          rcases Decidable.not_and_iff_or_not.1 hcond with h | h
          · left; omega
          · right; omega
        rw [if_neg hcond, List.nil_append]
        rcases htri with habove | hbelow
        · rw [isOverlapping_cons, isOvInner_cons, if_neg hcond,
            if_pos (show r2.1 > r1.2 from habove)]
          simp only []
          rw [if_pos (show r1.2 < r2.2 by omega)]
          exact ih as (r2 :: bs)
            (by simp only [List.length_cons] at hlen ⊢; omega) has hb
        · rw [isOverlapping_cons, isOvInner_cons, if_neg hcond,
            if_neg (show ¬ r2.1 > r1.2 by omega), ← isOverlapping_cons]
          rw [if_neg (show ¬ r1.2 < r2.2 by omega),
            if_pos (show r2.2 < r1.2 by omega)]
          exact ih (r1 :: as) bs
            (by simp only [List.length_cons] at hlen ⊢; omega) ha hbs

/-- **C5.** For canonical range lists a and b (valid inclusive ranges,
strictly increasing, pairwise non-overlapping), `Overlap` is commutative:
`a.Overlap(b) = b.Overlap(a)`; and `a.IsOverlapping(b)` is `true` exactly
when `a.Overlap(b)` is non-empty. -/
theorem overlap_comm (a b : RangeList) (ha : Canonical a) (hb : Canonical b) :
    Overlap a b = Overlap b a ∧
      (IsOverlapping a b = true ↔ Overlap a b ≠ []) := by
  have h1 : Overlap a b = interRef a b := by
    have := overlapGo_eq_interRef (a.length + b.length) a b [] le_rfl ha hb
    simpa [Overlap] using this
  have h2 : Overlap b a = interRef b a := by
    have := overlapGo_eq_interRef (b.length + a.length) b a [] le_rfl hb ha
    simpa [Overlap] using this
  refine ⟨?_, ?_⟩
  · rw [h1, h2, interRef_comm_aux (a.length + b.length) a b le_rfl]
  · rw [h1]
    exact isOverlapping_eq_interRef (a.length + b.length) a b le_rfl ha hb

/-- **C5 witness**: commutativity and the overlap test at the concrete
canonical lists [[1,3]] and [[2,5],[7,8]]. -/
theorem overlap_comm_witness :
    Overlap [(1, 3)] [(2, 5), (7, 8)] = Overlap [(2, 5), (7, 8)] [(1, 3)] ∧
      (IsOverlapping [(1, 3)] [(2, 5), (7, 8)] = true ↔
        Overlap [(1, 3)] [(2, 5), (7, 8)] ≠ []) :=
  overlap_comm [(1, 3)] [(2, 5), (7, 8)] (by decide) (by decide)

end Cpus
